import Mathlib

/-!
Verification of the CleanSheet rewrite engine (`src/lib/rewriteEngine.ts`).

The engine is a rule-based text rewriting pipeline.  We shallowly embed it
over `List Char`: every JavaScript regular-expression operation of the source
is translated into an explicit scanning function with the same matching
semantics (leftmost match, alternation order, greedy/lazy quantifiers,
word boundaries, the JS `\s` whitespace class restricted to its ASCII
members).  Recursions that are not structural use an explicit fuel argument;
fuel exhaustion returns the residual input unchanged so that the lemmas hold
for every fuel value while calls with fuel `≥ length` compute the real result.
-/

set_option maxRecDepth 1000000

namespace CleanSheet

abbrev Str := List Char

/-- Convert a Lean string literal to the `List Char` representation. -/
def str (s : String) : Str := s.toList

/-- ASCII members of the JS regex `\s` class (also used by `String.trim`). -/
def jsWs (c : Char) : Bool :=
  c = ' ' || c = '\t' || c = '\n' || c = '\r' || c = '\x0b' || c = '\x0c'

/-- JS regex `\w` class: `[A-Za-z0-9_]`. -/
def isWordChar (c : Char) : Bool :=
  (97 ≤ c.toNat && c.toNat ≤ 122) || (65 ≤ c.toNat && c.toNat ≤ 90) ||
  (48 ≤ c.toNat && c.toNat ≤ 57) || c = '_'

/-- JS regex `[A-Za-z]`. -/
def isAsciiLetter (c : Char) : Bool :=
  (97 ≤ c.toNat && c.toNat ≤ 122) || (65 ≤ c.toNat && c.toNat ≤ 90)

/-- `A`-`Z`. -/
def isAsciiUpper (c : Char) : Bool := 65 ≤ c.toNat && c.toNat ≤ 90

def toLowerStr (s : Str) : Str := s.map Char.toLower

def toUpperStr (s : Str) : Str := s.map Char.toUpper

/-- `String.prototype.trim`. -/
def trimStr (s : Str) : Str :=
  ((s.dropWhile jsWs).reverse.dropWhile jsWs).reverse

/-- Case-sensitive substring test (`String.prototype.includes`). -/
def containsSub (needle : Str) : Str → Bool
  | [] => needle.isEmpty
  | c :: cs => needle.isPrefixOf (c :: cs) || containsSub needle cs

/-- Case-insensitive prefix match: if the first `pat.length` characters of
`s` match `pat` up to `Char.toLower`, return the rest of `s`. -/
def stripPrefixCI : Str → Str → Option Str
  | [], s => some s
  | _ :: _, [] => none
  | p :: ps, c :: cs => if c.toLower = p.toLower then stripPrefixCI ps cs else none

/-- The word-boundary test of JS `\b` between an optional previous character
and an optional current character. -/
def wordOpt : Option Char → Bool
  | none => false
  | some c => isWordChar c

/-- `s.replace(pat, rep)` with the `gi` flags for a plain-text pattern:
replace every leftmost non-overlapping case-insensitive occurrence. -/
def replaceAllCI (fuel : Nat) (pat rep : Str) (s : Str) : Str :=
  match fuel, s with
  | 0, s => s
  | _ + 1, [] => []
  | f + 1, c :: cs =>
      match stripPrefixCI pat (c :: cs) with
      | some rest => rep ++ replaceAllCI f pat rep rest
      | none => c :: replaceAllCI f pat rep cs

/-- `s.replace(pat, rep)` with only the `i` flag: replace the first
case-insensitive occurrence, if any. -/
def replaceOnceCI : Str → Str → Str → Str
  | _, _, [] => []
  | pat, rep, c :: cs =>
      match stripPrefixCI pat (c :: cs) with
      | some rest => rep ++ rest
      | none => c :: replaceOnceCI pat rep cs

/-- Test for `new RegExp("\\b" + w + "\\b", "gi").test(s)`: a case-insensitive
occurrence of the (letters-only) word `w` flanked by word boundaries.
`prev` is the character just before the current scan position. -/
def hasWordCIAux (w : Str) (prev : Option Char) : Str → Bool
  | [] => false
  | c :: cs =>
      (!wordOpt prev &&
        (match stripPrefixCI w (c :: cs) with
         | some rest => !wordOpt rest.head?
         | none => false)) ||
      hasWordCIAux w (some c) cs

def hasWordCI (w s : Str) : Bool := hasWordCIAux w none s

/-- Sentence/clause punctuation class `[,.;:!?]` of `normaliseSpacing`. -/
def isClausePunct (c : Char) : Bool :=
  c = ',' || c = '.' || c = ';' || c = ':' || c = '!' || c = '?'

/-- Sentence terminators `[.!?]`. -/
def isTerminator (c : Char) : Bool := c = '.' || c = '!' || c = '?'

/-- `replace(/[ \t]+/g, " ")`. -/
def nsA (fuel : Nat) : Str → Str
  | [] => []
  | c :: cs =>
      match fuel with
      | 0 => c :: cs
      | f + 1 =>
          if c = ' ' || c = '\t' then
            ' ' :: nsA f (cs.dropWhile (fun d => d = ' ' || d = '\t'))
          else c :: nsA f cs

/-- `replace(/\s+([,.;:!?])/g, "$1")`. -/
def nsB (fuel : Nat) : Str → Str
  | [] => []
  | c :: cs =>
      match fuel with
      | 0 => c :: cs
      | f + 1 =>
          if jsWs c then
            match (c :: cs).dropWhile jsWs with
            | [] => (c :: cs).takeWhile jsWs
            | d :: ds =>
                if isClausePunct d then d :: nsB f ds
                else (c :: cs).takeWhile jsWs ++ nsB f (d :: ds)
          else c :: nsB f cs

/-- `replace(/([,.;:!?])([A-Za-z])/g, "$1 $2")`. -/
def nsC : Str → Str
  | [] => []
  | [c] => [c]
  | c :: d :: rest =>
      if isClausePunct c && isAsciiLetter d then c :: ' ' :: d :: nsC rest
      else c :: nsC (d :: rest)

/-- `replace(/\s+/g, " ")`. -/
def nsD (fuel : Nat) : Str → Str
  | [] => []
  | c :: cs =>
      match fuel with
      | 0 => c :: cs
      | f + 1 =>
          if jsWs c then ' ' :: nsD f (cs.dropWhile jsWs)
          else c :: nsD f cs

/-- `normaliseSpacing` (rewriteEngine.ts lines 165-172). -/
def normaliseSpacing (s : Str) : Str :=
  let a := nsA s.length s
  let b := nsB a.length a
  let c := nsC b
  trimStr (nsD c.length c)

/-- `replace(/\r\n/g, "\n")`. -/
def normaliseNewlines : Str → Str
  | [] => []
  | [c] => [c]
  | c :: d :: rest =>
      if c = '\r' && d = '\n' then '\n' :: normaliseNewlines rest
      else c :: normaliseNewlines (d :: rest)

/-- `split(/\n{2,}/)`: split on maximal runs of two or more newlines.  Like
the JS split, boundary matches produce empty fragments. -/
def splitBlankRuns (fuel : Nat) (acc : Str) : Str → List Str
  | [] => [acc.reverse]
  | c :: cs =>
      match fuel with
      | 0 => [acc.reverse ++ (c :: cs)]
      | f + 1 =>
          match c, cs with
          | '\n', '\n' :: cs2 =>
              acc.reverse :: splitBlankRuns f [] (cs2.dropWhile (· = '\n'))
          | _, _ => splitBlankRuns f (c :: acc) cs

/-- `splitParagraphs` (lines 156-158). -/
def splitParagraphs (t : Str) : List Str :=
  let n := normaliseNewlines t
  splitBlankRuns n.length [] n

/-- The repeated matches of `/[^.!?]+(?:[.!?]+|$)/g`: each match is a maximal
run of non-terminators together with the following run of terminators. -/
def sentenceMatches (fuel : Nat) : Str → List Str
  | [] => []
  | c :: cs =>
      match fuel with
      | 0 => [c :: cs]
      | f + 1 =>
          let t := (c :: cs).dropWhile isTerminator
          match t with
          | [] => []
          | _ :: _ =>
              let body := t.takeWhile (fun d => !isTerminator d)
              let rest := t.dropWhile (fun d => !isTerminator d)
              (body ++ rest.takeWhile isTerminator) ::
                sentenceMatches f (rest.dropWhile isTerminator)

/-- `splitSentences` (lines 160-163): if the regex has no match the whole
text is the single candidate; candidates are trimmed and empties removed. -/
def splitSentences (t : Str) : List Str :=
  let ms := sentenceMatches t.length t
  let base := match ms with | [] => [t] | _ :: _ => ms
  (base.map trimStr).filter (fun s => !s.isEmpty)

/-! ## Data model (types.ts) -/

inductive DocumentType
  | auditFinding | executiveSummary | statusUpdate | emailSenior | riskDescription
  deriving DecidableEq

inductive EnglishVariant
  | enUS | enGB
  deriving DecidableEq

structure RewriteOptions where
  activeVoice : Bool
  clearOwnership : Bool
  sharperImpact : Bool
  calmTone : Bool
  concise : Bool
  auditSafeMode : Bool
  owner : Option Str
  documentType : DocumentType
  englishVariant : EnglishVariant
  standardiseSpelling : Bool
  deriving DecidableEq

structure Change where
  type : Str
  description : Str
  deriving DecidableEq

structure RewriteResult where
  rewrittenText : Str
  changeLog : List Change
  suggestions : List Str
  deriving DecidableEq

structure StyleExample where
  id : Str
  title : Str
  text : Str
  tags : List Str
  isActive : Bool
  deriving DecidableEq

inductive ProtectedChunk
  | text (value : Str)
  | protected_ (value : Str)
  deriving DecidableEq

/-! ## Engine tables (rewriteEngine.ts lines 6-62) -/

def vocabularyMap : List (Str × Str) :=
  [ (str "lack of clarity", str "unclear")
  , (str "not consistently", str "inconsistently")
  , (str "at this stage", str "based on current information")
  , (str "in order to", str "to")
  , (str "due to the fact that", str "because")
  , (str "for the purpose of", str "to")
  , (str "with regards to", str "regarding")
  , (str "at the present time", str "currently") ]

def fillerOpeners : List Str :=
  [ str "We note that"
  , str "For awareness"
  , str "It should be noted"
  , str "It is important to note"
  , str "Please be advised"
  , str "For your information" ]

def ukToUs : List (Str × Str) :=
  [ (str "unauthorised", str "unauthorized")
  , (str "authorised", str "authorized")
  , (str "authorisation", str "authorization")
  , (str "authorisations", str "authorizations")
  , (str "organisation", str "organization")
  , (str "organisations", str "organizations")
  , (str "organise", str "organize")
  , (str "organised", str "organized")
  , (str "organising", str "organizing")
  , (str "prioritise", str "prioritize")
  , (str "prioritised", str "prioritized")
  , (str "prioritising", str "prioritizing")
  , (str "standardise", str "standardize")
  , (str "standardised", str "standardized")
  , (str "standardising", str "standardizing")
  , (str "emphasise", str "emphasize")
  , (str "emphasised", str "emphasized")
  , (str "emphasising", str "emphasizing")
  , (str "analyse", str "analyze")
  , (str "analysed", str "analyzed")
  , (str "analysing", str "analyzing")
  , (str "behaviour", str "behavior")
  , (str "behaviours", str "behaviors")
  , (str "labour", str "labor")
  , (str "defence", str "defense")
  , (str "catalogue", str "catalog")
  , (str "catalogues", str "catalogs")
  , (str "modelling", str "modeling")
  , (str "modelled", str "modeled")
  , (str "programme", str "program")
  , (str "programmes", str "programs") ]

/-- `usToUk` is built by swapping every pair of `ukToUs` (lines 60-62). -/
def usToUk : List (Str × Str) := ukToUs.map (fun p => (p.2, p.1))

def qualifiers : List Str :=
  [ str "may", str "could", str "might", str "potentially"
  , str "appears to", str "seems to", str "generally", str "possibly" ]

/-- Recognized passive past-participles, in the regex alternation order. -/
def ppList : List Str :=
  [ str "completed", str "implemented", str "performed", str "reviewed"
  , str "approved", str "identified", str "documented" ]

/-- `toBaseVerb` (lines 313-324). -/
def toBaseVerb (pp : Str) : Str :=
  if pp = str "completed" then str "complete"
  else if pp = str "implemented" then str "implement"
  else if pp = str "performed" then str "perform"
  else if pp = str "reviewed" then str "review"
  else if pp = str "approved" then str "approve"
  else if pp = str "identified" then str "identify"
  else if pp = str "documented" then str "document"
  else if (str "ed").isSuffixOf pp then pp.take (pp.length - 2)
  else pp

/-! ## Per-sentence rule stages -/

structure StripResult where
  changed : Bool
  value : Str
  removed : Option Str
  deriving DecidableEq

/-- `stripFillerOpener` (lines 174-182): first filler whose regex
`^<filler>\s+` (case-insensitive) matches is removed together with the
following whitespace run. -/
def stripFillerOpener (sentence : Str) : StripResult :=
  go fillerOpeners
where
  go : List Str → StripResult
    | [] => ⟨false, sentence, none⟩
    | filler :: rest =>
        match stripPrefixCI filler sentence with
        | some r =>
            match r with
            | c :: _ =>
                if jsWs c then ⟨true, r.dropWhile jsWs, some filler⟩
                else go rest
            | [] => go rest
        | none => go rest

structure VocabResult where
  changed : Bool
  value : Str
  changes : List Str
  deriving DecidableEq

/-- `replaceVocabulary` (lines 184-197): each phrase of the fixed map is
replaced case-insensitively (all occurrences); one change entry per phrase
that occurred. -/
def replaceVocabulary (sentence : Str) : VocabResult :=
  let step := fun (acc : Str × List Str) (p : Str × Str) =>
    if containsSub (toLowerStr p.1) (toLowerStr acc.1) then
      (replaceAllCI acc.1.length p.1 p.2 acc.1,
       acc.2 ++ [str "Replaced \"" ++ p.1 ++ str "\" with \"" ++ p.2 ++ str "\""])
    else acc
  let out := vocabularyMap.foldl step (sentence, [])
  ⟨out.1 ≠ sentence, out.1, out.2⟩

/-! ## Protected-token extraction (lines 199-215)

The pattern
`(\bhttps?:\/\/\S+\b)|(\bwww\.\S+\b)|(\b[\w.+-]+@[\w-]+\.[\w.-]+\b)|` +
`` (`[^`]*`)|(\b[A-Za-z]:\\[^\s]+\b)|(\b\/[^\s]+\b) ``
is scanned left to right; at each position the six alternatives are tried in
order.  Matchers return the matched text and the remaining input. -/

/-- Backquote character (code point 96). -/
def backquote : Char := Char.ofNat 96

/-- JS `\b` before a match that starts with character `c`, where `prev` is
the character preceding the match position (none at the string start). -/
def boundaryBefore (prev : Option Char) (c : Char) : Bool :=
  wordOpt prev != isWordChar c

/-- Greedy `\S+\b` (or `[^\s]+\b`): take the maximal non-whitespace run and
backtrack from the right until a word boundary holds between the last kept
character and the character that follows it.  Returns the kept run and the
rest of the input (given-back characters included). -/
def shrinkToBoundary (run : Str) (after : Option Char) : Option (Str × Str) :=
  go run.reverse []
where
  go : Str → Str → Option (Str × Str)
    | [], _ => none
    | last :: revRest, givenBack =>
        let next := match givenBack with | [] => after | g :: _ => some g
        if isWordChar last != wordOpt next then
          some ((last :: revRest).reverse, givenBack)
        else go revRest (last :: givenBack)

/-- Split the maximal run satisfying `p`, pairing it with the rest. -/
def spanStr (p : Char → Bool) (s : Str) : Str × Str :=
  (s.takeWhile p, s.dropWhile p)

/-- `\bhttps?:\/\/\S+\b`. -/
def matchHttpUrl (prev : Option Char) (s : Str) : Option (Str × Str) := do
  guard (boundaryBefore prev 'h')
  let r1 ← if (str "https://").isPrefixOf s then some (str "https://", s.drop 8)
           else if (str "http://").isPrefixOf s then some (str "http://", s.drop 7)
           else none
  let (run, rest) := spanStr (fun c => !jsWs c) r1.2
  let (kept, back) ← shrinkToBoundary run rest.head?
  return (r1.1 ++ kept, back ++ rest)

/-- `\bwww\.\S+\b`. -/
def matchWwwUrl (prev : Option Char) (s : Str) : Option (Str × Str) := do
  guard (boundaryBefore prev 'w')
  guard ((str "www.").isPrefixOf s)
  let r := s.drop 4
  let (run, rest) := spanStr (fun c => !jsWs c) r
  let (kept, back) ← shrinkToBoundary run rest.head?
  return (str "www." ++ kept, back ++ rest)

def isEmailLocal (c : Char) : Bool := isWordChar c || c = '.' || c = '+' || c = '-'
def isEmailHost (c : Char) : Bool := isWordChar c || c = '-'
def isEmailTail (c : Char) : Bool := isWordChar c || c = '.' || c = '-'

/-- `\b[\w.+-]+@[\w-]+\.[\w.-]+\b`. -/
def matchEmail (prev : Option Char) (s : Str) : Option (Str × Str) := do
  let c ← s.head?
  guard (isEmailLocal c && boundaryBefore prev c)
  let (localPart, r1) := spanStr isEmailLocal s
  guard (!localPart.isEmpty)
  let r2 ← match r1 with | '@' :: t => some t | _ => none
  let (host, r3) := spanStr isEmailHost r2
  guard (!host.isEmpty)
  let r4 ← match r3 with | '.' :: t => some t | _ => none
  let (tailRun, r5) := spanStr isEmailTail r4
  guard (!tailRun.isEmpty)
  let (kept, back) ← shrinkToBoundary tailRun r5.head?
  return (localPart ++ ['@'] ++ host ++ ['.'] ++ kept, back ++ r5)

/-- Backtick-delimited inline code: a backquote, any run of non-backquote
characters, and a closing backquote. -/
def matchInlineCode (s : Str) : Option (Str × Str) := do
  let c ← s.head?
  guard (c = backquote)
  let r := s.drop 1
  let inner := r.takeWhile (· ≠ backquote)
  match r.dropWhile (· ≠ backquote) with
  | close :: rest => return (c :: inner ++ [close], rest)
  | [] => none

/-- `\b[A-Za-z]:\\[^\s]+\b`. -/
def matchDrivePath (prev : Option Char) (s : Str) : Option (Str × Str) := do
  match s with
  | c :: ':' :: '\\' :: r =>
      guard (isAsciiLetter c && boundaryBefore prev c)
      let (run, rest) := spanStr (fun d => !jsWs d) r
      let (kept, back) ← shrinkToBoundary run rest.head?
      return (c :: ':' :: '\\' :: kept, back ++ rest)
  | _ => none

/-- `\b\/[^\s]+\b`: the slash is not a word character, so the leading `\b`
requires the preceding character to be a word character. -/
def matchPosixPath (prev : Option Char) (s : Str) : Option (Str × Str) := do
  match s with
  | '/' :: r =>
      guard (boundaryBefore prev '/')
      let (run, rest) := spanStr (fun d => !jsWs d) r
      let (kept, back) ← shrinkToBoundary run rest.head?
      return ('/' :: kept, back ++ rest)
  | _ => none

/-- Try the six alternatives in the pattern's order. -/
def matchProtected (prev : Option Char) (s : Str) : Option (Str × Str) :=
  (matchHttpUrl prev s).orElse fun _ =>
  (matchWwwUrl prev s).orElse fun _ =>
  (matchEmail prev s).orElse fun _ =>
  (matchInlineCode s).orElse fun _ =>
  (matchDrivePath prev s).orElse fun _ =>
  matchPosixPath prev s

/-- Flush pending plain-text characters (accumulated reversed) as a chunk. -/
def flushText (acc : Str) (chunks : List ProtectedChunk) : List ProtectedChunk :=
  if acc.isEmpty then chunks else ProtectedChunk.text acc.reverse :: chunks

/-- Left-to-right scan of `matchAll` (lines 206-213). -/
def protectScan (fuel : Nat) (prev : Option Char) (acc : Str) :
    Str → List ProtectedChunk
  | [] => flushText acc []
  | c :: cs =>
      match fuel with
      | 0 => flushText acc [ProtectedChunk.text (c :: cs)]
      | f + 1 =>
          match matchProtected prev (c :: cs) with
          | some (m, rest) =>
              flushText acc (ProtectedChunk.protected_ m ::
                protectScan f m.getLast? [] rest)
          | none => protectScan f (some c) (c :: acc) cs

/-- `protectTokens` (lines 199-215). -/
def protectTokens (input : Str) : List ProtectedChunk :=
  protectScan input.length none [] input

/-! ## Spelling standardisation (lines 217-252) -/

/-- `matchCase` (lines 383-387). -/
def matchCase (m repl : Str) : Str :=
  if toUpperStr m = m then toUpperStr repl
  else if m.head?.map Char.toUpper = m.head? then
    match repl with
    | [] => []
    | c :: cs => c.toUpper :: cs
  else repl

/-- `out.replace(new RegExp("\\b" + w + "\\b", "gi"), m => matchCase(m, to))`:
replace every case-insensitive word-bounded occurrence, case-matched.
`prev` is the character before the scan position in the original string. -/
def replaceWordAllCI (fuel : Nat) (w repl : Str) (prev : Option Char) (s : Str) : Str :=
  match fuel, s with
  | 0, s => s
  | _ + 1, [] => []
  | f + 1, c :: cs =>
      if !wordOpt prev then
        match stripPrefixCI w (c :: cs) with
        | some rest =>
            if !wordOpt rest.head? then
              let m := (c :: cs).take w.length
              matchCase m repl ++ replaceWordAllCI f w repl m.getLast? rest
            else c :: replaceWordAllCI f w repl (some c) cs
        | none => c :: replaceWordAllCI f w repl (some c) cs
      else c :: replaceWordAllCI f w repl (some c) cs

structure SpellResult where
  changed : Bool
  value : Str
  changes : List Str
  deriving DecidableEq

/-- `dedupe` (lines 389-399): trim, drop empties and exact duplicates,
keeping the first occurrence. -/
def dedupeAux (seen : List Str) : List Str → List Str
  | [] => []
  | s :: rest =>
      let k := trimStr s
      if k.isEmpty || seen.contains k then dedupeAux seen rest
      else k :: dedupeAux (k :: seen) rest

def dedupe (items : List Str) : List Str := dedupeAux [] items

/-- `standardiseSpelling` (lines 217-245): protected chunks pass through;
text chunks get every dictionary entry applied in order. -/
def standardiseSpelling (sentence : Str) (variant : EnglishVariant) : SpellResult :=
  let map := match variant with | .enUS => ukToUs | .enGB => usToUk
  let chunks := protectTokens sentence
  let step := fun (out : Str) (p : Str × Str) =>
    if hasWordCI p.1 out then replaceWordAllCI out.length p.1 p.2 none out else out
  let chunkChanges := fun (out0 : Str) =>
    map.foldl (fun acc p =>
      if hasWordCI p.1 acc.1
      then (step acc.1 p,
            acc.2 ++ [str "Standardised spelling: \"" ++ p.1 ++ str "\" â†’ \"" ++ p.2 ++ str "\""])
      else acc) (out0, [])
  let results := chunks.map (fun c =>
    match c with
    | .protected_ v => (v, ([] : List Str))
    | .text v => chunkChanges v)
  let value := (results.map Prod.fst).flatten
  let changes := (results.map Prod.snd).flatten
  ⟨!changes.isEmpty, value, dedupe changes⟩

/-- `detectMixedVariant` (lines 247-252). -/
def detectMixedVariant (t : Str) : Option Str :=
  let lower := toLowerStr t
  let hasUk := ukToUs.any (fun p => hasWordCI p.1 lower)
  let hasUs := ukToUs.any (fun p => hasWordCI p.2 lower)
  if hasUk && hasUs then
    some (str "Mixed UK/US spelling detected. Select one English variant for consistency.")
  else none

/-- Join a list of strings with a separator (`Array.prototype.join`). -/
def joinSep (sep : Str) : List Str → Str
  | [] => []
  | [x] => x
  | x :: y :: t => x ++ sep ++ joinSep sep (y :: t)

/-- `findQualifierHints` (lines 254-264). -/
def findQualifierHints (sentence : Str) : List Str :=
  let lower := toLowerStr sentence
  let found := qualifiers.filter (fun q => containsSub q lower)
  if found.isEmpty then []
  else [str "Qualification detected (" ++ joinSep (str ", ") found ++
        str "). Audit-safe default is to keep it unless evidence supports a stronger statement."]

/-! ## Passive→active conversion (lines 266-324)

Pattern 1: `^(.+?)\s+(was|were)\s+not\s+(<pp alternation>)\b(.*)$` (flag `i`).
Pattern 2: the same without `not`.  The lazy `(.+?)` means the shortest
non-empty newline-free subject prefix wins; each `\s+` is a maximal
whitespace run (the following element never starts with whitespace, so no
backtracking into the run is possible); `(.*)$` takes the rest provided it
contains no newline except possibly a final one (the JS `$` without `m`). -/

/-- `(.*)$` matching against the residual input: succeeds when the input has
no newline or only a final one, capturing everything before it. -/
def matchDollarTail (r : Str) : Option Str :=
  match r.dropWhile (· ≠ '\n') with
  | [] => some (r.takeWhile (· ≠ '\n'))
  | ['\n'] => some (r.takeWhile (· ≠ '\n'))
  | _ => none

/-- Try the participle alternation plus the trailing `\b(.*)$` against `r`.
Returns the (lowercased-comparison source) participle text and `m[4]`. -/
def matchPPTail (r : Str) : Option (Str × Str) :=
  go ppList
where
  go : List Str → Option (Str × Str)
    | [] => none
    | pp :: rest =>
        match stripPrefixCI pp r with
        | some r2 =>
            if !wordOpt r2.head? then
              match matchDollarTail r2 with
              | some m4 => some (r.take pp.length, m4)
              | none => none
            else none
        | none => go rest

/-- The shared `\s+(was|were)\s+` segment: match `was` (or, exclusively,
`were`) case-insensitively, require at least one whitespace character after
it and consume that maximal whitespace run. -/
def wasWereStep (r1 : Str) : Option Str :=
  match (stripPrefixCI (str "was") r1).orElse (fun _ => stripPrefixCI (str "were") r1) with
  | some r2 => if jsWs (r2.headD 'x') then some (r2.dropWhile jsWs) else none
  | none => none

/-- One lazy-subject split attempt for pattern 1 at subject length `i`.
Returns `(subject, pp, m4)` on success. -/
def p1TryAt (s : Str) (i : Nat) : Option (Str × Str × Str) :=
  if (decide (1 ≤ i) && !(s.take i).contains '\n') = true then
    if jsWs ((s.drop i).headD 'x') = true then
      match wasWereStep ((s.drop i).dropWhile jsWs) with
      | some r3 =>
          match stripPrefixCI (str "not") r3 with
          | some r4 =>
              if jsWs (r4.headD 'x') = true then
                match matchPPTail (r4.dropWhile jsWs) with
                | some (pp, m4) => some (s.take i, pp, m4)
                | none => none
              else none
          | none => none
      | none => none
    else none
  else none

/-- One lazy-subject split attempt for pattern 2 at subject length `i`. -/
def p2TryAt (s : Str) (i : Nat) : Option (Str × Str × Str) :=
  if (decide (1 ≤ i) && !(s.take i).contains '\n') = true then
    if jsWs ((s.drop i).headD 'x') = true then
      match wasWereStep ((s.drop i).dropWhile jsWs) with
      | some r3 =>
          match matchPPTail r3 with
          | some (pp, m4) => some (s.take i, pp, m4)
          | none => none
      | none => none
    else none
  else none

/-- Lazy `(.+?)`: the first subject length (counting up) whose attempt
succeeds wins. -/
def firstSplit (try_ : Nat → Option (Str × Str × Str)) :
    Nat → Nat → Option (Str × Str × Str)
  | 0, _ => none
  | fuel + 1, i =>
      match try_ i with
      | some r => some r
      | none => firstSplit try_ fuel (i + 1)

def firstMatchP1 (s : Str) : Option (Str × Str × Str) :=
  firstSplit (p1TryAt s) s.length 1

def firstMatchP2 (s : Str) : Option (Str × Str × Str) :=
  firstSplit (p2TryAt s) s.length 1

/-- `(m[4] ?? "").trim().replace(/^\s*by\s+.+$/i, "").trim()`. -/
def stripByTail (m4 : Str) : Str :=
  let t := trimStr m4
  trimStr (byReplaced t)
where
  /-- `t.replace(/^\s*by\s+.+$/i, "")`: when `t` starts with optional
  whitespace, `by` (case-insensitive), at least one whitespace character and
  at least one further `.`-matchable character reaching `$` (end of string,
  or just before a final newline), the whole of `t` is replaced by the empty
  string.  The greedy `\s+` may give back characters so that `.` can consume
  non-newline whitespace, hence the search over split points. -/
  byReplaced (t : Str) : Str :=
    let t1 := t.dropWhile jsWs
    match stripPrefixCI (str "by") t1 with
    | some r =>
        let wsRun := r.takeWhile jsWs
        if (List.range wsRun.length).any (fun k =>
             let rest := r.drop (k + 1)
             let a := rest.takeWhile (· ≠ '\n')
             let b := rest.dropWhile (· ≠ '\n')
             !a.isEmpty && (b.isEmpty || b = ['\n']))
        then []
        else t
    | none => t

structure ConvertResult where
  converted : Bool
  sentence : Str
  suggestion : Option Str
  deriving DecidableEq

/-- `convertPassiveToActiveSafe` (lines 266-311). -/
def convertPassiveToActiveSafe (sentence : Str) (owner : Option Str)
    (clearOwnership auditSafeMode : Bool) : ConvertResult :=
  match owner, clearOwnership with
  | some o, true =>
      if o.isEmpty then ⟨false, sentence, none⟩
      else
        match firstMatchP1 sentence with
        | some (subject, pp, m4) =>
            let base := toBaseVerb (toLowerStr pp)
            let tl := stripByTail m4
            ⟨true,
             o ++ str " did not " ++ base ++ [' '] ++ trimStr subject ++
               (if tl.isEmpty then [] else ' ' :: tl),
             none⟩
        | none =>
            match firstMatchP2 sentence with
            | some (subject, pp, m4) =>
                let tl := stripByTail m4
                ⟨true,
                 o ++ [' '] ++ toLowerStr pp ++ [' '] ++ trimStr subject ++
                   (if tl.isEmpty then [] else ' ' :: tl),
                 none⟩
            | none =>
                if auditSafeMode then
                  ⟨false, sentence,
                   some (str "Active voice not applied (audit-safe): only strict, meaning-preserving patterns are converted.")⟩
                else ⟨false, sentence, none⟩
  | _, _ => ⟨false, sentence, none⟩

/-- One step of the standalone-`not` scan: `prev` is the character before
the current position (`none` at the string start); a token needs a
whitespace-or-boundary context on both sides, the JS `(^|\s)not(\s|$)`. -/
def notAt (prev : Option Char) (s : Str) : Bool :=
  (match prev with | none => true | some c => jsWs c) &&
  (match stripPrefixCI (str "not") s with
   | some r => match r.head? with | none => true | some c => jsWs c
   | none => false)

/-- Scan every position of the string for a standalone `not` token. -/
def scanNot (prev : Option Char) : Str → Bool
  | [] => false
  | c :: cs => notAt prev (c :: cs) || scanNot (some c) cs

/-- Does the string contain a whitespace- or boundary-delimited
case-insensitive `not`?  The executable observation used to state that the
engine never invents a negation. -/
def hasNotToken (s : Str) : Bool := scanNot none s

/-- The same token notion as an explicit decomposition, used in proofs. -/
def tokenIn (s : Str) : Prop :=
  ∃ a n r, s = a ++ n ++ r ∧ toLowerStr n = str "not" ∧
    (a = [] ∨ ∃ e, a.getLast? = some e ∧ jsWs e = true) ∧
    (r = [] ∨ ∃ c, r.head? = some c ∧ jsWs c = true)

/-- `impactSuggestionOnly` (lines 326-336). -/
def impactSuggestionOnly (sentence : Str) (docType : DocumentType) : Option Str :=
  if docType ≠ .auditFinding then none
  else
    let lower := toLowerStr sentence
    if containsSub (str "risk") lower || containsSub (str "impact") lower ||
       containsSub (str "result") lower || containsSub (str "consequence") lower
    then none
    else some (str "Consider adding impact: state the credible consequence (who/what is affected and why it matters) without overstating certainty.")

/-! ## Style heuristics (lines 338-354)

The JS number arithmetic on sentence-length averages (sums of small integer
word counts divided by small counts, compared against `avgLength * 1.5` and
the integer floor `22`) is modelled exactly: averages are kept as unreduced
fractions with positive denominators and the comparisons are performed by
cross-multiplication. -/

/-- `sentence.split(/\s+/).length`: JS `split` keeps empty fragments at the
boundaries, so leading/trailing whitespace contributes empty elements and
the empty string has one element. -/
def jsSplitWs (fuel : Nat) (acc : Str) (s : Str) : List Str :=
  match fuel, s with
  | 0, s => [acc.reverse ++ s]
  | _ + 1, [] => [acc.reverse]
  | f + 1, c :: cs =>
      if jsWs c then acc.reverse :: jsSplitWs f [] (cs.dropWhile jsWs)
      else jsSplitWs f (c :: acc) cs

def wordCountJS (s : Str) : Nat := (jsSplitWs s.length [] s).length

/-- Mean sentence word count of one style example, as the fraction
`(sum of word counts, max 1 (number of sentences))`. -/
def exampleAvgFrac (t : Str) : Nat × Nat :=
  let sents := splitSentences t
  ((sents.map wordCountJS).sum, max 1 sents.length)

/-- Exact sum of fractions (numerator, positive denominator). -/
def sumFracs : List (Nat × Nat) → Nat × Nat
  | [] => (0, 1)
  | f :: rest =>
      let s := sumFracs rest
      (f.1 * s.2 + s.1 * f.2, f.2 * s.2)

/-- `applyStyleHeuristics` (lines 338-354).  With `(num, den)` the summed
example averages, `avgLength = num / (den * n)`; the JS condition
`avgLength > 0 && words > avgLength * 1.5 && words > 22` becomes
`num > 0 && 2 * words * den * n > 3 * num && words > 22`. -/
def applyStyleHeuristics (sentence : Str) (examples : List StyleExample) : Str :=
  let activeExamples := (examples.filter (·.isActive)).take 3
  if activeExamples.isEmpty then sentence
  else
    let s := sumFracs (activeExamples.map (fun e => exampleAvgFrac e.text))
    let words := wordCountJS sentence
    if s.1 > 0 && 2 * words * (s.2 * activeExamples.length) > 3 * s.1 && words > 22 then
      replaceOnceCI (str ", which ") (str ". This ")
        (replaceOnceCI (str ", and ") (str ". ") sentence)
    else sentence

/-! ## Casing and punctuation normalisation (lines 356-377) -/

/-- Uppercase the first ASCII letter of the (already trimmed) string. -/
def fixCaseCore : Str → Str
  | [] => []
  | c :: cs => if isAsciiLetter c then c.toUpper :: cs else c :: fixCaseCore cs

/-- `replace(/\bi\b/g, "I")`. -/
def iReplace (prev : Option Char) : Str → Str
  | [] => []
  | c :: cs =>
      if c = 'i' && !wordOpt prev && !wordOpt cs.head? then
        'I' :: iReplace (some 'i') cs
      else c :: iReplace (some c) cs

/-- `fixSentenceCasing` (lines 356-370). -/
def fixSentenceCasing (sentence : Str) : Str :=
  let t := trimStr sentence
  iReplace none (fixCaseCore t)

/-- `ensureTerminalPunctuation` (lines 372-377). -/
def ensureTerminalPunctuation (sentence : Str) : Str :=
  let t := trimStr sentence
  match t.getLast? with
  | none => t
  | some c => if isTerminator c then t else t ++ ['.']

/-- The final three per-sentence normalisation steps (lines 146-148). -/
def finalizeSentence (s : Str) : Str :=
  normaliseSpacing (ensureTerminalPunctuation (fixSentenceCasing s))

/-! ## Pipeline assembly (lines 64-154)

The mutable `changeLog`/`suggestions` arrays of the source are threaded as
explicit accumulators appended in the order the source pushes to them. -/

/-- Process one sentence (the body of the `for` loop, lines 97-151).
Returns the rewritten sentence and the change-log/suggestion entries it
appends, in order. -/
def rewriteSentence (concise : Bool) (standardiseSpellingOpt : Bool)
    (variant : EnglishVariant) (activeVoice : Bool) (owner : Option Str)
    (clearOwnership auditSafeMode sharperImpact : Bool) (docType : DocumentType)
    (examples : List StyleExample) (sentence0 : Str) :
    Str × List Change × List Str :=
  let s1c :=
    if concise then
      let stripped := stripFillerOpener sentence0
      if stripped.changed then
        (stripped.value,
         [({ type := str "concision"
           , description := str "Removed filler opener: \"" ++ stripped.removed.getD [] ++ str "\"" } : Change)])
      else (sentence0, [])
    else (sentence0, [])
  let vocab := replaceVocabulary s1c.1
  let s2c :=
    if vocab.changed then
      (vocab.value, s1c.2 ++ vocab.changes.map (fun c => { type := str "clarity", description := c }))
    else (s1c.1, s1c.2)
  let s3c :=
    if standardiseSpellingOpt then
      let spelled := standardiseSpelling s2c.1 variant
      if spelled.changed then
        (spelled.value, s2c.2 ++ spelled.changes.map (fun c => { type := str "spelling", description := c }))
      else (s2c.1, s2c.2)
    else (s2c.1, s2c.2)
  let hints := findQualifierHints s3c.1
  let s4cs :=
    if activeVoice then
      let active := convertPassiveToActiveSafe s3c.1 owner clearOwnership auditSafeMode
      if active.converted then
        ((active.sentence,
          s3c.2 ++ [({ type := str "voice"
                     , description := str "Converted passive to active voice (safe rule)" } : Change)]),
         hints)
      else
        match active.suggestion with
        | some sug => ((s3c.1, s3c.2), hints ++ [sug])
        | none => ((s3c.1, s3c.2), hints)
    else ((s3c.1, s3c.2), hints)
  let s5 := s4cs.1.1
  let sugg2 :=
    if sharperImpact then
      match impactSuggestionOnly s5 docType with
      | some sug => s4cs.2 ++ [sug]
      | none => s4cs.2
    else s4cs.2
  let s6 := if !examples.isEmpty then applyStyleHeuristics s5 examples else s5
  (finalizeSentence s6, s4cs.1.2, sugg2)

/-- `rewriteBlock` (lines 83-154). -/
def rewriteBlock (concise standardiseSpellingOpt : Bool) (variant : EnglishVariant)
    (activeVoice : Bool) (owner : Option Str)
    (clearOwnership auditSafeMode sharperImpact : Bool) (docType : DocumentType)
    (examples : List StyleExample) (block : Str) :
    Str × List Change × List Str :=
  let trimmed := trimStr block
  if trimmed.isEmpty then (block, [], [])
  else
    let processed := normaliseSpacing trimmed
    let sentences := splitSentences processed
    let results := sentences.map
      (rewriteSentence concise standardiseSpellingOpt variant activeVoice owner
        clearOwnership auditSafeMode sharperImpact docType examples)
    (trimStr (joinSep [' '] (results.map (fun r => r.1))),
     (results.map (fun r => r.2.1)).flatten,
     (results.map (fun r => r.2.2)).flatten)

/-- `rewrite` before aggregation: rewritten blocks plus the raw (not yet
deduplicated or capped) change-log and suggestion streams. -/
def rewriteRaw (text : Str) (concise standardiseSpellingOpt : Bool)
    (variant : EnglishVariant) (activeVoice : Bool) (owner : Option Str)
    (clearOwnership auditSafeMode sharperImpact : Bool) (docType : DocumentType)
    (examples : List StyleExample) : Str × List Change × List Str :=
  let mixed := match detectMixedVariant text with | some m => [m] | none => []
  let blocks := splitParagraphs text
  let results := blocks.map
    (rewriteBlock concise standardiseSpellingOpt variant activeVoice owner
      clearOwnership auditSafeMode sharperImpact docType examples)
  (trimStr (joinSep (str "\n\n") (results.map (fun r => r.1))),
   (results.map (fun r => r.2.1)).flatten,
   mixed ++ (results.map (fun r => r.2.2)).flatten)

/-- `rewrite` (lines 64-81). -/
def rewrite (text : Str) (options : RewriteOptions) (examples : List StyleExample) :
    RewriteResult :=
  let raw := rewriteRaw text options.concise options.standardiseSpelling
    options.englishVariant options.activeVoice options.owner options.clearOwnership
    options.auditSafeMode options.sharperImpact options.documentType examples
  { rewrittenText := raw.1
  , changeLog := raw.2.1
  , suggestions := (dedupe raw.2.2).take 12 }

/-- The raw, not yet deduplicated or truncated, suggestion stream of a
`rewrite` call. -/
def rawSuggestions (text : Str) (options : RewriteOptions)
    (examples : List StyleExample) : List Str :=
  (rewriteRaw text options.concise options.standardiseSpelling
    options.englishVariant options.activeVoice options.owner options.clearOwnership
    options.auditSafeMode options.sharperImpact options.documentType examples).2.2

/-- The raw change-log stream of a `rewrite` call (it is returned as is). -/
def rawChangeLog (text : Str) (options : RewriteOptions)
    (examples : List StyleExample) : List Change :=
  (rewriteRaw text options.concise options.standardiseSpelling
    options.englishVariant options.activeVoice options.owner options.clearOwnership
    options.auditSafeMode options.sharperImpact options.documentType examples).2.1

/-! ## Concrete instances used by the claim theorems -/

/-- The option set of the repository's own test suite
(`rewriteEngine.test.ts` lines 5-19). -/
def baseOptions : RewriteOptions :=
  { activeVoice := true, clearOwnership := true, sharperImpact := true
  , calmTone := true, concise := true, auditSafeMode := true
  , owner := some (str "Operations"), documentType := .auditFinding
  , englishVariant := .enGB, standardiseSpelling := true }

def c1Input : Str := str "See https://example.com now."

def c4Input : Str := str "The report was completed by staff who may leave."

def c4Options : RewriteOptions :=
  { activeVoice := true, clearOwnership := true, sharperImpact := false
  , calmTone := false, concise := false, auditSafeMode := true
  , owner := some (str "Operations"), documentType := .statusUpdate
  , englishVariant := .enGB, standardiseSpelling := false }

def c6Input : Str :=
  str "A may b. A could b. A might b. A potentially b. A possibly b. A generally b. A appears to b. A seems to b. A may could b. A may might b. A could might b. A might possibly b."

def c6Options : RewriteOptions :=
  { activeVoice := true, clearOwnership := true, sharperImpact := true
  , calmTone := false, concise := false, auditSafeMode := true
  , owner := some (str "Operations"), documentType := .auditFinding
  , englishVariant := .enGB, standardiseSpelling := false }

/-- A style example whose sentences average 1.5 words, making any sentence of
more than 22 words eligible for the style split. -/
def styleShortExample : StyleExample :=
  { id := str "ex1", title := str "Example", text := str "Short. Very short."
  , tags := [], isActive := true }

def c9Sentence : Str :=
  str "The quick brown fox jumps over the lazy dog near the river bank today, and the team will review every log entry soon, which is a burden."

def c8Input : Str :=
  str "The quick brown fox jumps over the lazy dog near the river bank today, and the team will review every log entry soon."

def c8Options : RewriteOptions :=
  { activeVoice := false, clearOwnership := false, sharperImpact := false
  , calmTone := false, concise := false, auditSafeMode := false
  , owner := none, documentType := .statusUpdate
  , englishVariant := .enGB, standardiseSpelling := false }

/-- Does the string end in one of the terminators `.`, `!`, `?`. -/
def endsTerminalB (s : Str) : Bool :=
  match s.getLast? with
  | none => false
  | some c => isTerminator c

/-- Does the string begin, after any leading non-letter characters, with an
uppercase ASCII letter (vacuously true when it has no letter). -/
def firstLetterUpperB (s : Str) : Bool :=
  match (s.filter isAsciiLetter).head? with
  | none => true
  | some c => isAsciiUpper c

/-! ## Claim C10 -/

/-- Claim C10: for every input text, style-example list and pair of option
records differing only in `calmTone`, `rewrite` returns identical results:
the `calmTone` toggle is never read by the core engine. -/
theorem claim_C10_calmTone_unread (text : Str) (o : RewriteOptions)
    (examples : List StyleExample) (b : Bool) :
    rewrite text { o with calmTone := b } examples = rewrite text o examples := by
  cases o
  rfl

/-! ## Claim C5 -/

/-- Claim C5: in the passive-to-active stage, an unset/empty owner or a
disabled `clearOwnership` leaves the sentence unchanged with no suggestion
(silent skip); with owner set and `clearOwnership` on but neither strict
pattern matching, exactly one withheld-conversion suggestion is emitted when
`auditSafeMode` is on and nothing when it is off. -/
theorem claim_C5_passive_stage_policy (s : Str) (ow : Option Str) (co asm : Bool) :
    convertPassiveToActiveSafe s none co asm = ⟨false, s, none⟩ ∧
    convertPassiveToActiveSafe s (some []) co asm = ⟨false, s, none⟩ ∧
    convertPassiveToActiveSafe s ow false asm = ⟨false, s, none⟩ ∧
    (∀ o : Str, o ≠ [] → firstMatchP1 s = none → firstMatchP2 s = none →
      convertPassiveToActiveSafe s (some o) true true =
        ⟨false, s, some (str "Active voice not applied (audit-safe): only strict, meaning-preserving patterns are converted.")⟩ ∧
      convertPassiveToActiveSafe s (some o) true false = ⟨false, s, none⟩) := by
  refine ⟨by cases co <;> rfl, by cases co <;> rfl, by cases ow <;> rfl, ?_⟩
  intro o ho h1 h2
  constructor <;>
    simp [convertPassiveToActiveSafe, List.isEmpty_iff, ho, h1, h2]

/-- Witness for claim C5 at a concrete sentence matching neither pattern. -/
theorem claim_C5_witness :
    convertPassiveToActiveSafe (str "No patterns here.") (some (str "Operations")) true true =
      ⟨false, str "No patterns here.", some (str "Active voice not applied (audit-safe): only strict, meaning-preserving patterns are converted.")⟩ ∧
    convertPassiveToActiveSafe (str "No patterns here.") (some (str "Operations")) true false =
      ⟨false, str "No patterns here.", none⟩ :=
  (claim_C5_passive_stage_policy (str "No patterns here.") none true true).2.2.2
    (str "Operations") (by decide) (by decide) (by decide)

/-! ## Claim C1 -/

/-- Claim C1 (code bug): the protected span `https://example.com` of the
input is recognised by `protectTokens`, yet the rewritten text does not
contain it: `normaliseSpacing` runs on the raw block before any masking and
inserts a space after the dot of `example.com`, and sentence splitting then
breaks the URL.  This contradicts the repository's own protected-token test. -/
theorem claim_C1_protected_span_code_bug :
    (protectTokens c1Input).contains
      (ProtectedChunk.protected_ (str "https://example.com")) = true ∧
    (rewrite c1Input baseOptions []).rewrittenText = str "See https://example. Com now." ∧
    containsSub (str "https://example.com")
      (rewrite c1Input baseOptions []).rewrittenText = false :=
  ⟨by decide, by decide, by decide⟩

/-! ## Claim C7 -/

/-- Claim C7: spelling standardisation is a symmetric round trip over the
fixed dictionary: for every pair, standardising the UK form to `en-US`
yields the US form and standardising that back to `en-GB` restores the UK
form. -/
theorem claim_C7_spelling_round_trip : ∀ p ∈ ukToUs,
    (standardiseSpelling p.1 .enUS).value = p.2 ∧
    (standardiseSpelling p.2 .enGB).value = p.1 := by decide

/-- Witness for claim C7 at the pair named by the specification. -/
theorem claim_C7_witness :
    (standardiseSpelling (str "unauthorised") .enUS).value = str "unauthorized" ∧
    (standardiseSpelling (str "unauthorized") .enGB).value = str "unauthorised" :=
  claim_C7_spelling_round_trip (str "unauthorised", str "unauthorized") (by decide)

/-! ## Claim C9 (counterexample part) -/

/-- Claim C9 counterexample: on a sentence that triggers the style split and
contains both `", and "` and `", which "`, the code applies BOTH
replacements in sequence, not only the first applicable one: the output has
lost its `", which "` occurrence (replaced by `". This "`), contradicting
the claim that the first applicable pattern wins and the other substring is
left alone. -/
theorem claim_C9_counterexample :
    containsSub (str ", and ") c9Sentence = true ∧
    containsSub (str ", which ") c9Sentence = true ∧
    applyStyleHeuristics c9Sentence [styleShortExample] =
      str "The quick brown fox jumps over the lazy dog near the river bank today. the team will review every log entry soon. This is a burden." ∧
    containsSub (str ", which ")
      (applyStyleHeuristics c9Sentence [styleShortExample]) = false ∧
    containsSub (str ". This ")
      (applyStyleHeuristics c9Sentence [styleShortExample]) = true :=
  ⟨by decide, by decide, by decide, by decide, by decide⟩

/-! ## Claim C6 -/

theorem dedupeAux_not_mem_seen :
    ∀ (l seen : List Str), ∀ x ∈ dedupeAux seen l, ¬ x ∈ seen := by
  intro l
  induction l with
  | nil => intro seen x hx; simp [dedupeAux] at hx
  | cons s rest ih =>
      intro seen x hx
      unfold dedupeAux at hx
      by_cases h : ((trimStr s).isEmpty || seen.contains (trimStr s)) = true
      · rw [if_pos h] at hx
        exact ih seen x hx
      · rw [if_neg h] at hx
        rcases List.mem_cons.mp hx with he | hx2
        · subst he
          intro hmem
          simp only [Bool.or_eq_true, not_or] at h
          exact h.2 (List.elem_eq_true_of_mem hmem)
        · intro hmem
          exact ih (trimStr s :: seen) x hx2 (List.mem_cons_of_mem _ hmem)

theorem dedupeAux_nodup : ∀ (l seen : List Str), (dedupeAux seen l).Nodup := by
  intro l
  induction l with
  | nil => intro seen; simp [dedupeAux]
  | cons s rest ih =>
      intro seen
      unfold dedupeAux
      by_cases h : ((trimStr s).isEmpty || seen.contains (trimStr s)) = true
      · rw [if_pos h]; exact ih seen
      · rw [if_neg h]
        refine List.nodup_cons.mpr ⟨?_, ih _⟩
        intro hmem
        exact dedupeAux_not_mem_seen rest (trimStr s :: seen) _ hmem
          (List.mem_cons_self _ _)

theorem dedupeAux_sublist :
    ∀ (l seen : List Str), (dedupeAux seen l).Sublist (l.map trimStr) := by
  intro l
  induction l with
  | nil => intro seen; simp [dedupeAux]
  | cons s rest ih =>
      intro seen
      unfold dedupeAux
      by_cases h : ((trimStr s).isEmpty || seen.contains (trimStr s)) = true
      · rw [if_pos h]
        exact (ih seen).trans (List.sublist_cons_self _ _)
      · rw [if_neg h]
        exact List.Sublist.cons₂ _ (ih _)

/-- Claim C6: the suggestions of every `rewrite` result are deduplicated
(after trimming) preserving first-seen order — they form a duplicate-free
sublist of the trimmed raw suggestion stream — and are capped at 12, with
exactly 12 delivered whenever at least 12 distinct suggestions were
produced; the change log is returned as produced, never deduplicated or
capped. -/
theorem claim_C6_suggestion_dedupe_cap (text : Str) (options : RewriteOptions)
    (examples : List StyleExample) :
    (rewrite text options examples).suggestions.Nodup ∧
    (rewrite text options examples).suggestions.length ≤ 12 ∧
    (rewrite text options examples).suggestions.Sublist
      ((rawSuggestions text options examples).map trimStr) ∧
    (12 ≤ (dedupe (rawSuggestions text options examples)).length →
      (rewrite text options examples).suggestions.length = 12) ∧
    (rewrite text options examples).changeLog = rawChangeLog text options examples := by
  have hs : (rewrite text options examples).suggestions =
      (dedupe (rawSuggestions text options examples)).take 12 := rfl
  refine ⟨?_, ?_, ?_, ?_, rfl⟩
  · rw [hs]
    exact (dedupeAux_nodup _ _).sublist (List.take_sublist _ _)
  · rw [hs, List.length_take]
    exact min_le_left _ _
  · rw [hs]
    exact (List.take_sublist _ _).trans (dedupeAux_sublist _ _)
  · intro h
    rw [hs, List.length_take]
    omega

/-- Witness for claim C6: a document producing 14 distinct suggestions is
truncated to exactly 12. -/
theorem claim_C6_witness : (rewrite c6Input c6Options []).suggestions.length = 12 :=
  (claim_C6_suggestion_dedupe_cap c6Input c6Options []).2.2.2.1 (by decide)

/-! ## Claim C4 -/

theorem containsSub_nil (l : Str) : containsSub [] l = true := by
  cases l <;> simp [containsSub, List.isPrefixOf]

theorem containsSub_self (n : Str) : containsSub n n = true := by
  cases n with
  | nil => simp [containsSub]
  | cons c cs => simp [containsSub, List.isPrefixOf_iff_prefix]

theorem containsSub_append_left (n pre h : Str) (hc : containsSub n h = true) :
    containsSub n (pre ++ h) = true := by
  induction pre with
  | nil => simpa using hc
  | cons p ps ih => simp [containsSub, ih]

theorem isPrefixOf_append (n h post : Str) (hp : n.isPrefixOf h = true) :
    n.isPrefixOf (h ++ post) = true := by
  rw [List.isPrefixOf_iff_prefix] at hp ⊢
  exact hp.trans (List.prefix_append h post)

theorem containsSub_append_right (n h post : Str) (hc : containsSub n h = true) :
    containsSub n (h ++ post) = true := by
  induction h with
  | nil =>
      simp [containsSub] at hc
      subst hc
      exact containsSub_nil post
  | cons c cs ih =>
      simp only [containsSub, Bool.or_eq_true] at hc
      rcases hc with hp | hc2
      · simp only [List.cons_append, containsSub, Bool.or_eq_true]
        exact Or.inl (isPrefixOf_append n (c :: cs) post hp)
      · simp only [List.cons_append, containsSub, Bool.or_eq_true]
        exact Or.inr (ih hc2)

theorem containsSub_joinSep (sep : Str) (l : List Str) (q : Str) (hq : q ∈ l) :
    containsSub q (joinSep sep l) = true := by
  induction l with
  | nil => cases hq
  | cons x t ih =>
      rcases List.mem_cons.mp hq with he | ht
      · subst he
        cases t with
        | nil => exact containsSub_self q
        | cons y t2 =>
            show containsSub q (q ++ sep ++ joinSep sep (y :: t2)) = true
            rw [List.append_assoc]
            exact containsSub_append_right q q _ (containsSub_self q)
      · cases t with
        | nil => cases ht
        | cons y t2 =>
            show containsSub q (x ++ sep ++ joinSep sep (y :: t2)) = true
            rw [List.append_assoc]
            exact containsSub_append_left q x _
              (containsSub_append_left q sep _ (ih ht))

/-- Claim C4 counterexample: the sentence contains the hedge `may`, the
qualifier stage emits a suggestion naming it, yet the rewritten text does
not contain `may` at all (even case-insensitively): the passive→active
stage deleted the whole `by ...` tail carrying the hedge.  So a matched
hedge term is not always present in the corresponding output sentence. -/
theorem claim_C4_counterexample :
    containsSub (str "may") (toLowerStr c4Input) = true ∧
    (rewrite c4Input c4Options []).suggestions.any
      (fun m => containsSub (str "may") m) = true ∧
    (rewrite c4Input c4Options []).rewrittenText =
      str "Operations completed The report." ∧
    containsSub (str "may")
      (toLowerStr (rewrite c4Input c4Options []).rewrittenText) = false :=
  ⟨by decide, by decide, by decide, by decide⟩

/-- Claim C4 (amended): the qualifier-hint stage is detection-only: it never
rewrites the sentence, and for any sentence containing a hedge term it emits
exactly one suggestion whose text names every matched term — but a later
mutating stage (the passive→active `by ...`-tail removal, or casing) may
still alter or drop the term from the final output sentence. -/
theorem claim_C4_qualifier_stage (s q : Str) (hq : q ∈ qualifiers)
    (hin : containsSub q (toLowerStr s) = true) :
    (findQualifierHints s).length = 1 ∧
    ∀ m ∈ findQualifierHints s, containsSub q m = true := by
  have hqf : q ∈ qualifiers.filter (fun q2 => containsSub q2 (toLowerStr s)) :=
    List.mem_filter.mpr ⟨hq, hin⟩
  have hne : (qualifiers.filter (fun q2 => containsSub q2 (toLowerStr s))).isEmpty = false := by
    have := List.ne_nil_of_mem hqf
    rcases h : qualifiers.filter (fun q2 => containsSub q2 (toLowerStr s)) with _ | ⟨a, t⟩
    · exact absurd h this
    · rfl
  constructor
  · simp only [findQualifierHints, hne, Bool.false_eq_true, if_false]
    rfl
  · intro m hm
    simp only [findQualifierHints, hne, Bool.false_eq_true, if_false,
      List.mem_singleton] at hm
    subst hm
    rw [List.append_assoc]
    exact containsSub_append_left q _ _
      (containsSub_append_right q _ _ (containsSub_joinSep _ _ _ hqf))

/-- Witness for the amended claim C4 at the test suite's qualifier input. -/
theorem claim_C4_witness :
    (findQualifierHints (str "Access reviews may not detect unauthorised access promptly.")).length = 1 ∧
    ∀ m ∈ findQualifierHints (str "Access reviews may not detect unauthorised access promptly."),
      containsSub (str "may") m = true :=
  claim_C4_qualifier_stage _ (str "may") (by decide) (by decide)

/-! ## Claim C9 (amended part) -/

theorem stripPrefixCI_isSome (pat : Str) :
    ∀ s : Str, (stripPrefixCI pat s).isSome =
      (toLowerStr pat).isPrefixOf (toLowerStr s) := by
  induction pat with
  | nil => intro s; simp [stripPrefixCI, toLowerStr, List.isPrefixOf]
  | cons p ps ih =>
      intro s
      cases s with
      | nil => simp [stripPrefixCI, toLowerStr, List.isPrefixOf]
      | cons c cs =>
          simp only [stripPrefixCI, toLowerStr, List.map_cons, List.isPrefixOf]
          by_cases h : c.toLower = p.toLower
          · rw [if_pos h]
            have : (p.toLower == c.toLower) = true := by simp [h.symm]
            rw [this, Bool.true_and]
            exact ih cs
          · rw [if_neg h]
            have : (p.toLower == c.toLower) = false := by
              simp [Ne.symm h]
            rw [this, Bool.false_and]
            rfl

theorem replaceOnceCI_of_not_contains (pat rep : Str) :
    ∀ s : Str, containsSub (toLowerStr pat) (toLowerStr s) = false →
      replaceOnceCI pat rep s = s := by
  intro s
  induction s with
  | nil => intro _; rfl
  | cons c cs ih =>
      intro h
      have ht : toLowerStr (c :: cs) = c.toLower :: toLowerStr cs := rfl
      rw [ht] at h
      simp only [containsSub, Bool.or_eq_false_iff] at h
      have hnone : stripPrefixCI pat (c :: cs) = none := by
        cases ho : stripPrefixCI pat (c :: cs) with
        | none => rfl
        | some r =>
            have hs := stripPrefixCI_isSome pat (c :: cs)
            rw [ho, ht] at hs
            rw [h.1] at hs
            simp at hs
      show replaceOnceCI pat rep (c :: cs) = c :: cs
      rw [replaceOnceCI, hnone]
      exact congrArg (c :: ·) (ih h.2)

/-- Claim C9 (amended): the style heuristic depends only on the first three
`isActive` examples, and when neither `", and "` nor `", which "` occurs in
the sentence (case-insensitively) it leaves the sentence unchanged; when the
length trigger fires, the code applies the `", and "` replacement and then
the `", which "` replacement in sequence (both may fire), not a single
first-applicable split. -/
theorem claim_C9_style_heuristic_amended (s : Str) (examples : List StyleExample) :
    applyStyleHeuristics s examples =
      applyStyleHeuristics s ((examples.filter (·.isActive)).take 3) ∧
    (containsSub (str ", and ") (toLowerStr s) = false →
     containsSub (str ", which ") (toLowerStr s) = false →
     applyStyleHeuristics s examples = s) := by
  constructor
  · have h1 : ((examples.filter (·.isActive)).take 3).filter (·.isActive) =
        (examples.filter (·.isActive)).take 3 := by
      refine List.filter_eq_self.mpr ?_
      intro a ha
      exact List.of_mem_filter (List.mem_of_mem_take ha)
    have hfix : (((examples.filter (·.isActive)).take 3).filter (·.isActive)).take 3 =
        (examples.filter (·.isActive)).take 3 := by
      rw [h1, List.take_take]
      norm_num
    simp only [applyStyleHeuristics, hfix]
  · intro hand hwhich
    have hand2 : containsSub (toLowerStr (str ", and ")) (toLowerStr s) = false := hand
    have hwhich2 : containsSub (toLowerStr (str ", which ")) (toLowerStr s) = false := hwhich
    have hinner : replaceOnceCI (str ", and ") (str ". ") s = s :=
      replaceOnceCI_of_not_contains _ _ s hand2
    have houter : replaceOnceCI (str ", which ") (str ". This ")
        (replaceOnceCI (str ", and ") (str ". ") s) = s := by
      rw [hinner]
      exact replaceOnceCI_of_not_contains _ _ s hwhich2
    unfold applyStyleHeuristics
    by_cases he : ((examples.filter (·.isActive)).take 3).isEmpty = true
    · simp [he]
    · simp only [Bool.not_eq_true] at he
      simp only [he, Bool.false_eq_true, if_false]
      split
      · rw [hinner] at houter
        rw [hinner, houter]
      · rfl

/-- Witness for the amended claim C9 at a sentence without either split
pattern. -/
theorem claim_C9_witness :
    applyStyleHeuristics (str "Plain short sentence") [styleShortExample] =
      applyStyleHeuristics (str "Plain short sentence")
        (([styleShortExample].filter (·.isActive)).take 3) ∧
    applyStyleHeuristics (str "Plain short sentence") [styleShortExample] =
      str "Plain short sentence" :=
  ⟨(claim_C9_style_heuristic_amended (str "Plain short sentence") [styleShortExample]).1,
   (claim_C9_style_heuristic_amended (str "Plain short sentence") [styleShortExample]).2
     (by decide) (by decide)⟩

/-! ## Claim C8: helper lemmas -/

theorem char_toNat_ofNat (n : Nat) (h : n < 55296) : (Char.ofNat n).toNat = n := by
  rw [Char.ofNat, dif_pos (Or.inl h : n.isValidChar)]
  show (UInt32.ofNat' n _).toNat = n
  simp [UInt32.ofNat', UInt32.toNat, BitVec.toNat_ofNatLt]

theorem toNat_toUpper (c : Char) :
    (c.toUpper).toNat = if 97 ≤ c.toNat ∧ c.toNat ≤ 122 then c.toNat - 32 else c.toNat := by
  show (if c.toNat ≥ 97 ∧ c.toNat ≤ 122 then Char.ofNat (c.toNat - 32) else c).toNat = _
  by_cases h : 97 ≤ c.toNat ∧ c.toNat ≤ 122
  · rw [if_pos h, if_pos h]
    exact char_toNat_ofNat _ (by omega)
  · rw [if_neg h, if_neg h]

theorem letter_toUpper (c : Char) (h : isAsciiLetter c = true) :
    isAsciiLetter c.toUpper = true ∧ isAsciiUpper c.toUpper = true := by
  simp only [isAsciiLetter, Bool.or_eq_true, Bool.and_eq_true, decide_eq_true_eq] at h
  simp only [isAsciiLetter, isAsciiUpper, toNat_toUpper, Bool.or_eq_true,
    Bool.and_eq_true, decide_eq_true_eq]
  split <;> omega

theorem ws_not_term (c : Char) (h : jsWs c = true) : isTerminator c = false := by
  simp only [jsWs, Bool.or_eq_true, decide_eq_true_eq] at h
  rcases h with ((((h | h) | h) | h) | h) | h <;> subst h <;> decide

theorem ws_not_letter (c : Char) (h : jsWs c = true) : isAsciiLetter c = false := by
  simp only [jsWs, Bool.or_eq_true, decide_eq_true_eq] at h
  rcases h with ((((h | h) | h) | h) | h) | h <;> subst h <;> decide

theorem spacetab_ws (c : Char) (h : (c = ' ' || c = '\t') = true) : jsWs c = true := by
  simp only [Bool.or_eq_true, decide_eq_true_eq] at h
  rcases h with h | h <;> subst h <;> decide

theorem term_not_spacetab (c : Char) (h : isTerminator c = true) :
    (c = ' ' || c = '\t') = false := by
  simp only [isTerminator, Bool.or_eq_true, decide_eq_true_eq] at h
  rcases h with (h | h) | h <;> subst h <;> decide

theorem term_not_ws (c : Char) (h : isTerminator c = true) : jsWs c = false := by
  simp only [isTerminator, Bool.or_eq_true, decide_eq_true_eq] at h
  rcases h with (h | h) | h <;> subst h <;> decide

theorem punct_not_letter (c : Char) (h : isClausePunct c = true) :
    isAsciiLetter c = false := by
  simp only [isClausePunct, Bool.or_eq_true, decide_eq_true_eq] at h
  rcases h with ((((h | h) | h) | h) | h) | h <;> subst h <;> decide

theorem mem_takeWhile_imp {p : Char → Bool} :
    ∀ {l : Str} {a : Char}, a ∈ l.takeWhile p → p a = true := by
  intro l
  induction l with
  | nil => intro a ha; cases ha
  | cons c cs ih =>
      intro a ha
      by_cases hc : p c = true
      · rw [List.takeWhile_cons_of_pos hc] at ha
        rcases List.mem_cons.mp ha with he | hm
        · subst he; exact hc
        · exact ih hm
      · rw [List.takeWhile_cons_of_neg (by simpa using hc)] at ha
        cases ha

theorem filter_dropWhile_eq (q p : Char → Bool)
    (h : ∀ c, p c = true → q c = false) :
    ∀ l : Str, (l.dropWhile p).filter q = l.filter q := by
  intro l
  induction l with
  | nil => rfl
  | cons c cs ih =>
      by_cases hc : p c = true
      · rw [List.dropWhile_cons_of_pos hc, ih, List.filter_cons, h c hc]
        simp
      · rw [List.dropWhile_cons_of_neg (by simpa using hc)]

/-- `endsTerminalB` on a cons cell. -/
theorem ET_cons (x : Char) (l : Str) :
    endsTerminalB (x :: l) = if l.isEmpty then isTerminator x else endsTerminalB l := by
  cases l with
  | nil => rfl
  | cons y ys => simp [endsTerminalB, List.getLast?_cons_cons, List.isEmpty]

theorem ET_ne_nil {l : Str} (h : endsTerminalB l = true) : l.isEmpty = false := by
  cases l with
  | nil => simp [endsTerminalB] at h
  | cons y ys => rfl

theorem ET_of_getLast {l : Str} (h : endsTerminalB l = true) :
    ∃ c, l.getLast? = some c ∧ isTerminator c = true := by
  unfold endsTerminalB at h
  cases hg : l.getLast? with
  | none => rw [hg] at h; cases h
  | some c => rw [hg] at h; exact ⟨c, rfl, h⟩

theorem ET_append_right (a b : Str) (h : endsTerminalB b = true) :
    endsTerminalB (a ++ b) = true := by
  obtain ⟨c, hg, ht⟩ := ET_of_getLast h
  unfold endsTerminalB
  rw [List.getLast?_append, hg]
  exact ht

theorem getLast?_dropWhile (p : Char → Bool) (l : Str) (c : Char)
    (hc : p c = false) (hl : l.getLast? = some c) :
    (l.dropWhile p).getLast? = some c := by
  have hsplit := List.takeWhile_append_dropWhile (p := p) (l := l)
  cases hd : l.dropWhile p with
  | nil =>
      exfalso
      have h2 := hsplit
      rw [hd, List.append_nil] at h2
      have hmem : c ∈ l.takeWhile p := by
        rw [h2]
        exact List.mem_of_getLast?_eq_some hl
      rw [mem_takeWhile_imp hmem] at hc
      cases hc
  | cons d ds =>
      rw [← hsplit, List.getLast?_append, hd] at hl
      cases hg : (d :: ds).getLast? with
      | none => simp at hg
      | some e => rw [hg] at hl; simpa using hl

theorem ET_dropWhile (p : Char → Bool) (l : Str)
    (hp : ∀ c, isTerminator c = true → p c = false)
    (h : endsTerminalB l = true) : endsTerminalB (l.dropWhile p) = true := by
  obtain ⟨c, hg, ht⟩ := ET_of_getLast h
  unfold endsTerminalB
  rw [getLast?_dropWhile p l c (hp c ht) hg]
  exact ht

/-! Letter-sequence preservation: every spacing step only deletes whitespace
characters or inserts spaces, so the subsequence of ASCII letters is
untouched. -/

theorem nsA_filter : ∀ (f : Nat) (s : Str),
    (nsA f s).filter isAsciiLetter = s.filter isAsciiLetter := by
  intro f
  induction f with
  | zero => intro s; cases s <;> rfl
  | succ f ih =>
      intro s
      cases s with
      | nil => rfl
      | cons c cs =>
          show (nsA (f + 1) (c :: cs)).filter isAsciiLetter = _
          rw [nsA]
          by_cases hc : (c = ' ' || c = '\t') = true
          · rw [if_pos hc]
            have hcl : isAsciiLetter c = false := ws_not_letter c (spacetab_ws c hc)
            rw [List.filter_cons, List.filter_cons, hcl]
            simp only [Bool.false_eq_true, if_false]
            rw [ih]
            exact filter_dropWhile_eq _ _
              (fun d hd => ws_not_letter d (spacetab_ws d hd)) cs
          · rw [if_neg hc]
            rw [List.filter_cons, List.filter_cons, ih]

theorem nsB_filter : ∀ (f : Nat) (s : Str),
    (nsB f s).filter isAsciiLetter = s.filter isAsciiLetter := by
  intro f
  induction f with
  | zero => intro s; cases s <;> rfl
  | succ f ih =>
      intro s
      cases s with
      | nil => rfl
      | cons c cs =>
          show (nsB (f + 1) (c :: cs)).filter isAsciiLetter = _
          rw [nsB]
          by_cases hc : jsWs c = true
          · rw [if_pos hc]
            have hsplit := List.takeWhile_append_dropWhile (p := jsWs) (l := c :: cs)
            have htwf : ((c :: cs).takeWhile jsWs).filter isAsciiLetter = [] :=
              List.filter_eq_nil_iff.mpr (by
                intro a ha
                simp [ws_not_letter a (mem_takeWhile_imp ha)])
            split
            · next hd =>
                have h2 := hsplit
                rw [hd, List.append_nil] at h2
                rw [htwf, ← h2, htwf]
            · next d ds hd =>
                have h3 := hsplit
                rw [hd] at h3
                by_cases hp : isClausePunct d = true
                · rw [if_pos hp]
                  conv_rhs => rw [← h3]
                  simp only [List.filter_append, htwf, List.nil_append,
                    List.filter_cons, punct_not_letter d hp, Bool.false_eq_true,
                    if_false, ih]
                · rw [if_neg hp]
                  conv_rhs => rw [← h3]
                  simp only [List.filter_append, htwf, List.nil_append, ih]
          · rw [if_neg hc]
            rw [List.filter_cons, List.filter_cons, ih]

theorem nsC_filter : ∀ s : Str, (nsC s).filter isAsciiLetter = s.filter isAsciiLetter := by
  intro s
  induction s using nsC.induct with
  | case1 => rfl
  | case2 c => rfl
  | case3 c d rest hcd ih =>
      rw [nsC, if_pos hcd]
      have : isAsciiLetter ' ' = false := by decide
      simp only [List.filter_cons, this, Bool.false_eq_true, if_false]
      rw [ih]
  | case4 c d rest hcd ih =>
      rw [nsC, if_neg hcd]
      simp only [List.filter_cons]
      rw [ih]
      simp only [List.filter_cons]

theorem nsD_filter : ∀ (f : Nat) (s : Str),
    (nsD f s).filter isAsciiLetter = s.filter isAsciiLetter := by
  intro f
  induction f with
  | zero => intro s; cases s <;> rfl
  | succ f ih =>
      intro s
      cases s with
      | nil => rfl
      | cons c cs =>
          show (nsD (f + 1) (c :: cs)).filter isAsciiLetter = _
          rw [nsD]
          by_cases hc : jsWs c = true
          · rw [if_pos hc]
            have hcl : isAsciiLetter c = false := ws_not_letter c hc
            have : isAsciiLetter ' ' = false := by decide
            rw [List.filter_cons, List.filter_cons, hcl, this]
            simp only [Bool.false_eq_true, if_false]
            rw [ih]
            exact filter_dropWhile_eq _ _ (fun d hd => ws_not_letter d hd) cs
          · rw [if_neg hc]
            rw [List.filter_cons, List.filter_cons, ih]

theorem trim_filter (s : Str) :
    (trimStr s).filter isAsciiLetter = s.filter isAsciiLetter := by
  unfold trimStr
  rw [List.filter_reverse, filter_dropWhile_eq _ _ (fun d hd => ws_not_letter d hd),
    List.filter_reverse, List.reverse_reverse,
    filter_dropWhile_eq _ _ (fun d hd => ws_not_letter d hd)]

theorem normaliseSpacing_filter (s : Str) :
    (normaliseSpacing s).filter isAsciiLetter = s.filter isAsciiLetter := by
  unfold normaliseSpacing
  rw [trim_filter, nsD_filter, nsC_filter, nsB_filter, nsA_filter]

/-! Terminal-punctuation preservation through the spacing steps. -/

theorem nsA_ET : ∀ (f : Nat) (s : Str),
    endsTerminalB s = true → endsTerminalB (nsA f s) = true := by
  intro f
  induction f with
  | zero => intro s h; cases s <;> simpa using h
  | succ f ih =>
      intro s h
      cases s with
      | nil => simpa using h
      | cons c cs =>
          show endsTerminalB (nsA (f + 1) (c :: cs)) = true
          rw [nsA]
          by_cases hc : (c = ' ' || c = '\t') = true
          · rw [if_pos hc]
            have hcw : jsWs c = true := spacetab_ws c hc
            rw [ET_cons] at h
            cases hcs : cs.isEmpty with
            | true =>
                rw [hcs, if_pos rfl] at h
                rw [ws_not_term c hcw] at h
                cases h
            | false =>
                rw [hcs] at h
                simp only [Bool.false_eq_true, if_false] at h
                have hdw : endsTerminalB (cs.dropWhile (fun d => d = ' ' || d = '\t')) = true :=
                  ET_dropWhile _ cs (fun d hd => term_not_spacetab d hd) h
                have := ih _ hdw
                rw [ET_cons, ET_ne_nil this]
                simpa using this
          · rw [if_neg hc]
            rw [ET_cons] at h ⊢
            cases hcs : cs.isEmpty with
            | true =>
                rw [hcs] at h
                have : (nsA f cs).isEmpty = true := by
                  have : cs = [] := by
                    cases cs with
                    | nil => rfl
                    | cons x xs => simp [List.isEmpty] at hcs
                  rw [this]
                  simp [nsA]
                rw [this]
                simpa using h
            | false =>
                rw [hcs] at h
                simp only [Bool.false_eq_true, if_false] at h
                have := ih cs h
                rw [ET_ne_nil this]
                simpa using this

theorem ET_append_right_elim (a b : Str) (hb : b.isEmpty = false)
    (h : endsTerminalB (a ++ b) = true) : endsTerminalB b = true := by
  unfold endsTerminalB at h ⊢
  rw [List.getLast?_append] at h
  cases hg : b.getLast? with
  | none =>
      exfalso
      cases b with
      | nil => simp [List.isEmpty] at hb
      | cons x xs => simp at hg
  | some e => rw [hg] at h; simpa using h

theorem nsB_ET : ∀ (f : Nat) (s : Str),
    endsTerminalB s = true → endsTerminalB (nsB f s) = true := by
  intro f
  induction f with
  | zero => intro s h; cases s <;> simpa using h
  | succ f ih =>
      intro s h
      cases s with
      | nil => simpa using h
      | cons c cs =>
          show endsTerminalB (nsB (f + 1) (c :: cs)) = true
          rw [nsB]
          by_cases hc : jsWs c = true
          · rw [if_pos hc]
            have hsplit := List.takeWhile_append_dropWhile (p := jsWs) (l := c :: cs)
            split
            · next hd =>
                exfalso
                have h2 := hsplit
                rw [hd, List.append_nil] at h2
                obtain ⟨e, hg, ht⟩ := ET_of_getLast h
                have hmem : e ∈ (c :: cs).takeWhile jsWs := by
                  rw [h2]; exact List.mem_of_getLast?_eq_some hg
                rw [ws_not_term e (mem_takeWhile_imp hmem)] at ht
                cases ht
            · next d ds hd =>
                have h3 := hsplit
                rw [hd] at h3
                have hg : endsTerminalB (d :: ds) = true := by
                  refine ET_append_right_elim ((c :: cs).takeWhile jsWs) (d :: ds) rfl ?_
                  rw [h3]; exact h
                by_cases hp : isClausePunct d = true
                · rw [if_pos hp]
                  rw [ET_cons] at hg ⊢
                  cases hds : ds.isEmpty with
                  | true =>
                      rw [hds] at hg
                      have hnil : ds = [] := by
                        cases ds with
                        | nil => rfl
                        | cons x xs => simp [List.isEmpty] at hds
                      rw [hnil]
                      simpa [nsB] using hg
                  | false =>
                      rw [hds] at hg
                      simp only [Bool.false_eq_true, if_false] at hg
                      have := ih ds hg
                      rw [ET_ne_nil this]
                      simpa using this
                · rw [if_neg hp]
                  exact ET_append_right _ _ (ih (d :: ds) hg)
          · rw [if_neg hc]
            rw [ET_cons] at h ⊢
            cases hcs : cs.isEmpty with
            | true =>
                rw [hcs] at h
                have hnil : cs = [] := by
                  cases cs with
                  | nil => rfl
                  | cons x xs => simp [List.isEmpty] at hcs
                rw [hnil]
                simpa [nsB] using h
            | false =>
                rw [hcs] at h
                simp only [Bool.false_eq_true, if_false] at h
                have := ih cs h
                rw [ET_ne_nil this]
                simpa using this

theorem nsC_ne_nil : ∀ (c : Char) (cs : Str), (nsC (c :: cs)).isEmpty = false := by
  intro c cs
  cases cs with
  | nil => rfl
  | cons d rest =>
      rw [nsC]
      by_cases h : (isClausePunct c && isAsciiLetter d) = true
      · rw [if_pos h]; rfl
      · rw [if_neg h]; rfl

theorem nsC_ET : ∀ s : Str, endsTerminalB s = true → endsTerminalB (nsC s) = true := by
  intro s
  induction s using nsC.induct with
  | case1 => intro h; simpa using h
  | case2 c => intro h; simpa using h
  | case3 c d rest hcd ih =>
      intro h
      rw [nsC, if_pos hcd]
      rw [ET_cons] at h
      simp only [List.isEmpty, Bool.false_eq_true, if_false] at h
      rw [ET_cons] at h
      rw [ET_cons]
      simp only [List.isEmpty, Bool.false_eq_true, if_false]
      rw [ET_cons]
      simp only [List.isEmpty, Bool.false_eq_true, if_false]
      rw [ET_cons]
      cases hr : rest.isEmpty with
      | true =>
          rw [hr] at h
          have hnil : rest = [] := by
            cases rest with
            | nil => rfl
            | cons x xs => simp [List.isEmpty] at hr
          rw [hnil]
          simpa [nsC] using h
      | false =>
          rw [hr] at h
          simp only [Bool.false_eq_true, if_false] at h
          have := ih h
          rw [ET_ne_nil this]
          simpa using this
  | case4 c d rest hcd ih =>
      intro h
      rw [nsC, if_neg hcd]
      rw [ET_cons] at h
      simp only [List.isEmpty, Bool.false_eq_true, if_false] at h
      have := ih h
      rw [ET_cons, ET_ne_nil this]
      simpa using this

theorem nsD_ET : ∀ (f : Nat) (s : Str),
    endsTerminalB s = true → endsTerminalB (nsD f s) = true := by
  intro f
  induction f with
  | zero => intro s h; cases s <;> simpa using h
  | succ f ih =>
      intro s h
      cases s with
      | nil => simpa using h
      | cons c cs =>
          show endsTerminalB (nsD (f + 1) (c :: cs)) = true
          rw [nsD]
          by_cases hc : jsWs c = true
          · rw [if_pos hc]
            rw [ET_cons] at h
            cases hcs : cs.isEmpty with
            | true =>
                rw [hcs, if_pos rfl] at h
                rw [ws_not_term c hc] at h
                cases h
            | false =>
                rw [hcs] at h
                simp only [Bool.false_eq_true, if_false] at h
                have hdw : endsTerminalB (cs.dropWhile jsWs) = true :=
                  ET_dropWhile _ cs (fun d hd => term_not_ws d hd) h
                have := ih _ hdw
                rw [ET_cons, ET_ne_nil this]
                simpa using this
          · rw [if_neg hc]
            rw [ET_cons] at h ⊢
            cases hcs : cs.isEmpty with
            | true =>
                rw [hcs] at h
                have hnil : cs = [] := by
                  cases cs with
                  | nil => rfl
                  | cons x xs => simp [List.isEmpty] at hcs
                rw [hnil]
                simpa [nsD] using h
            | false =>
                rw [hcs] at h
                simp only [Bool.false_eq_true, if_false] at h
                have := ih cs h
                rw [ET_ne_nil this]
                simpa using this

theorem head_dropWhile {p : Char → Bool} :
    ∀ {l : Str} {c : Char} {t : Str}, l.dropWhile p = c :: t → p c = false := by
  intro l
  induction l with
  | nil => intro c t h; cases h
  | cons x xs ih =>
      intro c t h
      by_cases hx : p x = true
      · rw [List.dropWhile_cons_of_pos hx] at h
        exact ih h
      · rw [List.dropWhile_cons_of_neg (by simpa using hx)] at h
        cases h
        simpa using hx

theorem trim_ET (s : Str) (h : endsTerminalB s = true) :
    endsTerminalB (trimStr s) = true := by
  unfold trimStr
  have h1 : endsTerminalB (s.dropWhile jsWs) = true :=
    ET_dropWhile _ s (fun d hd => term_not_ws d hd) h
  obtain ⟨c, hg, ht⟩ := ET_of_getLast h1
  have hrev : (s.dropWhile jsWs).reverse.head? = some c := by
    rw [List.head?_reverse]
    exact hg
  cases hr : (s.dropWhile jsWs).reverse with
  | nil => rw [hr] at hrev; cases hrev
  | cons x xs =>
      rw [hr] at hrev
      have hx : x = c := by simpa using hrev
      subst hx
      rw [List.dropWhile_cons_of_neg (by simp [term_not_ws x ht])]
      rw [← hr, List.reverse_reverse]
      exact h1

theorem ensureTerminal_ET (s : Str) (h : (trimStr s).isEmpty = false) :
    endsTerminalB (ensureTerminalPunctuation s) = true := by
  unfold ensureTerminalPunctuation
  show endsTerminalB
    (match (trimStr s).getLast? with
     | none => trimStr s
     | some c => if isTerminator c = true then trimStr s else trimStr s ++ ['.']) = true
  cases hg : (trimStr s).getLast? with
  | none =>
      exfalso
      cases ht : trimStr s with
      | nil => rw [ht] at h; simp [List.isEmpty] at h
      | cons x xs => rw [ht] at hg; simp at hg
  | some c =>
      show endsTerminalB (if isTerminator c = true then trimStr s else trimStr s ++ ['.']) = true
      by_cases hc : isTerminator c = true
      · rw [if_pos hc]
        unfold endsTerminalB
        rw [hg]
        exact hc
      · rw [if_neg hc]
        unfold endsTerminalB
        rw [List.getLast?_concat]
        rfl

theorem normaliseSpacing_ET (s : Str) (h : endsTerminalB s = true) :
    endsTerminalB (normaliseSpacing s) = true := by
  unfold normaliseSpacing
  exact trim_ET _ (nsD_ET _ _ (nsC_ET _ (nsB_ET _ _ (nsA_ET _ _ h))))

/-! First-letter lemmas. -/

theorem letter_not_ws (c : Char) (h : isAsciiLetter c = true) : jsWs c = false := by
  simp only [isAsciiLetter, Bool.or_eq_true, Bool.and_eq_true, decide_eq_true_eq] at h
  have h65 : 65 ≤ c.toNat := by omega
  simp only [jsWs, Bool.or_eq_false_iff, decide_eq_false_iff_not]
  refine ⟨⟨⟨⟨⟨?_, ?_⟩, ?_⟩, ?_⟩, ?_⟩, ?_⟩ <;>
    (rintro rfl; exact absurd h65 (by decide))

theorem firstLetterUpperB_congr {s1 s2 : Str}
    (h : s1.filter isAsciiLetter = s2.filter isAsciiLetter) :
    firstLetterUpperB s1 = firstLetterUpperB s2 := by
  unfold firstLetterUpperB
  rw [h]

theorem fixCaseCore_firstLetter : ∀ t : Str, firstLetterUpperB (fixCaseCore t) = true := by
  intro t
  induction t with
  | nil => rfl
  | cons c cs ih =>
      rw [fixCaseCore]
      by_cases hl : isAsciiLetter c = true
      · rw [if_pos hl]
        unfold firstLetterUpperB
        rw [List.filter_cons, (letter_toUpper c hl).1]
        simp only [if_true]
        exact (letter_toUpper c hl).2
      · rw [if_neg hl]
        unfold firstLetterUpperB at ih ⊢
        rw [List.filter_cons]
        simp only [Bool.not_eq_true] at hl
        rw [hl]
        simpa using ih

theorem iReplace_firstLetter :
    ∀ (l : Str) (prev : Option Char), firstLetterUpperB l = true →
      firstLetterUpperB (iReplace prev l) = true := by
  intro l
  induction l with
  | nil => intro prev h; exact h
  | cons c cs ih =>
      intro prev h
      rw [iReplace]
      by_cases hcond : (c = 'i' && !wordOpt prev && !wordOpt cs.head?) = true
      · exfalso
        have hci : c = 'i' := by
          simp only [Bool.and_eq_true, decide_eq_true_eq] at hcond
          exact hcond.1.1
        subst hci
        unfold firstLetterUpperB at h
        rw [List.filter_cons] at h
        simp only [show isAsciiLetter 'i' = true from rfl, if_true] at h
        simp [isAsciiUpper] at h
      · rw [if_neg hcond]
        by_cases hl : isAsciiLetter c = true
        · unfold firstLetterUpperB at h ⊢
          rw [List.filter_cons] at h ⊢
          rw [hl] at h ⊢
          simpa using h
        · unfold firstLetterUpperB at h ⊢
          rw [List.filter_cons] at h ⊢
          simp only [Bool.not_eq_true] at hl
          rw [hl] at h ⊢
          simp only [Bool.false_eq_true, if_false] at h ⊢
          exact ih (some c) h

/-! Head-character lemmas establishing that the casing output still has a
non-whitespace first character, so its trim is non-empty. -/

theorem getLast?_dropWhile_ne_nil {p : Char → Bool} {l : Str}
    (h : l.dropWhile p ≠ []) : (l.dropWhile p).getLast? = l.getLast? := by
  conv_rhs => rw [← List.takeWhile_append_dropWhile (p := p) (l := l)]
  rw [List.getLast?_append]
  cases hg : (l.dropWhile p).getLast? with
  | none =>
      exfalso
      cases hd : l.dropWhile p with
      | nil => exact h hd
      | cons x xs => rw [hd] at hg; simp at hg
  | some e => rfl

theorem head_trim_not_ws {s : Str} {c : Char} {t : Str}
    (h : trimStr s = c :: t) : jsWs c = false := by
  have hy : ((s.dropWhile jsWs).reverse.dropWhile jsWs).reverse = c :: t := h
  have hyne : (s.dropWhile jsWs).reverse.dropWhile jsWs ≠ [] := by
    intro hnil
    rw [hnil] at hy
    cases hy
  have hg : ((s.dropWhile jsWs).reverse.dropWhile jsWs).getLast? =
      (s.dropWhile jsWs).reverse.getLast? := getLast?_dropWhile_ne_nil hyne
  rw [List.getLast?_reverse] at hg
  have hhead : (c :: t).head? = ((s.dropWhile jsWs).reverse.dropWhile jsWs).getLast? := by
    rw [← hy, List.head?_reverse]
  rw [hg] at hhead
  cases hd : s.dropWhile jsWs with
  | nil => rw [hd] at hhead; cases hhead
  | cons x xs =>
      rw [hd] at hhead
      have : c = x := by simpa using hhead
      subst this
      exact head_dropWhile hd

theorem trim_ne_nil_of_head {c : Char} {t : Str} (h : jsWs c = false) :
    (trimStr (c :: t)).isEmpty = false := by
  unfold trimStr
  rw [List.dropWhile_cons_of_neg (by simp [h])]
  have hne : (c :: t).reverse.dropWhile jsWs ≠ [] := by
    rw [Ne, List.dropWhile_eq_nil_iff]
    intro hall
    have hc : c ∈ (c :: t).reverse := by simp
    rw [hall c hc] at h
    cases h
  cases hd : (c :: t).reverse.dropWhile jsWs with
  | nil => exact absurd hd hne
  | cons y ys => simp

theorem fixCaseCore_head : ∀ (c : Char) (cs : Str), jsWs c = false →
    ∃ c2 t2, fixCaseCore (c :: cs) = c2 :: t2 ∧ jsWs c2 = false := by
  intro c cs h
  rw [fixCaseCore]
  by_cases hl : isAsciiLetter c = true
  · rw [if_pos hl]
    exact ⟨c.toUpper, cs, rfl, letter_not_ws _ (letter_toUpper c hl).1⟩
  · rw [if_neg hl]
    exact ⟨c, fixCaseCore cs, rfl, h⟩

theorem iReplace_head : ∀ (prev : Option Char) (c : Char) (cs : Str), jsWs c = false →
    ∃ c2 t2, iReplace prev (c :: cs) = c2 :: t2 ∧ jsWs c2 = false := by
  intro prev c cs h
  rw [iReplace]
  by_cases hcond : (c = 'i' && !wordOpt prev && !wordOpt cs.head?) = true
  · rw [if_pos hcond]
    exact ⟨'I', iReplace (some 'i') cs, rfl, by decide⟩
  · rw [if_neg hcond]
    exact ⟨c, iReplace (some c) cs, rfl, h⟩

theorem ensureTerminal_filter (s : Str) :
    (ensureTerminalPunctuation s).filter isAsciiLetter = s.filter isAsciiLetter := by
  unfold ensureTerminalPunctuation
  show (match (trimStr s).getLast? with
        | none => trimStr s
        | some c => if isTerminator c = true then trimStr s
                    else trimStr s ++ ['.']).filter isAsciiLetter = _
  cases hg : (trimStr s).getLast? with
  | none => exact trim_filter s
  | some c =>
      show (if isTerminator c = true then trimStr s else trimStr s ++ ['.']).filter
        isAsciiLetter = _
      by_cases hc : isTerminator c = true
      · rw [if_pos hc]
        exact trim_filter s
      · rw [if_neg hc, List.filter_append]
        have : ([ '.' ] : Str).filter isAsciiLetter = [] := by decide
        rw [this, List.append_nil]
        exact trim_filter s

/-- Claim C8 (amended): the per-sentence finalization chain
(casing fix, terminal punctuation, spacing normalisation, lines 146-148)
yields, for every sentence with non-empty trim, a sentence that ends in one
of `.!?` and whose first letter (if any) is uppercase.  (The claim as stated
over the re-split sentences of the whole output fails: a style-heuristic
split inserts `". "` without uppercasing the following word.) -/
theorem claim_C8_sentence_finalization (s : Str) (h : trimStr s ≠ []) :
    endsTerminalB (finalizeSentence s) = true ∧
    firstLetterUpperB (finalizeSentence s) = true := by
  obtain ⟨c0, t0, hct⟩ : ∃ c0 t0, trimStr s = c0 :: t0 := by
    cases ht : trimStr s with
    | nil => exact absurd ht h
    | cons x xs => exact ⟨x, xs, rfl⟩
  have hc0 : jsWs c0 = false := head_trim_not_ws hct
  obtain ⟨c1, t1, hfix, hc1⟩ := fixCaseCore_head c0 t0 hc0
  obtain ⟨c2, t2, hirep, hc2⟩ := iReplace_head none c1 t1 hc1
  have hX : fixSentenceCasing s = c2 :: t2 := by
    unfold fixSentenceCasing
    rw [hct]
    show iReplace none (fixCaseCore (c0 :: t0)) = c2 :: t2
    rw [hfix, hirep]
  have htrimX : (trimStr (fixSentenceCasing s)).isEmpty = false := by
    rw [hX]
    exact trim_ne_nil_of_head hc2
  constructor
  · exact normaliseSpacing_ET _ (ensureTerminal_ET _ htrimX)
  · have h1 : firstLetterUpperB (finalizeSentence s) =
        firstLetterUpperB (ensureTerminalPunctuation (fixSentenceCasing s)) :=
      firstLetterUpperB_congr (normaliseSpacing_filter _)
    have h2 : firstLetterUpperB (ensureTerminalPunctuation (fixSentenceCasing s)) =
        firstLetterUpperB (fixSentenceCasing s) :=
      firstLetterUpperB_congr (ensureTerminal_filter _)
    rw [h1, h2]
    unfold fixSentenceCasing
    exact iReplace_firstLetter _ none (fixCaseCore_firstLetter _)

/-- Claim C8 counterexample: with an active short style example, the style
split inserts `". "` mid-sentence and the following word stays lowercase, so
a sentence of the rewritten text begins with a lowercase letter. -/
theorem claim_C8_counterexample :
    (rewrite c8Input c8Options [styleShortExample]).rewrittenText =
      str "The quick brown fox jumps over the lazy dog near the river bank today. the team will review every log entry soon." ∧
    (splitSentences (rewrite c8Input c8Options [styleShortExample]).rewrittenText).contains
      (str "the team will review every log entry soon.") = true ∧
    firstLetterUpperB (str "the team will review every log entry soon.") = false :=
  ⟨by decide, by decide, by decide⟩

/-- Witness for the amended claim C8 at a concrete lowercase sentence. -/
theorem claim_C8_witness :
    endsTerminalB (finalizeSentence (str "operations completed the report")) = true ∧
    firstLetterUpperB (finalizeSentence (str "operations completed the report")) = true :=
  claim_C8_sentence_finalization (str "operations completed the report") (by decide)

/-! ## Claim C3: helper lemmas about the pattern-1 matcher -/

theorem char_eq_iff_toNat (a b : Char) : a = b ↔ a.toNat = b.toNat := by
  constructor
  · intro h; rw [h]
  · intro h
    have h2 := congrArg Char.ofNat h
    rwa [Char.ofNat_toNat, Char.ofNat_toNat] at h2

theorem jsWs_toNat (c : Char) : jsWs c = true ↔
    (c.toNat = 32 ∨ c.toNat = 9 ∨ c.toNat = 10 ∨ c.toNat = 13 ∨
     c.toNat = 11 ∨ c.toNat = 12) := by
  simp only [jsWs, Bool.or_eq_true, decide_eq_true_eq,
    char_eq_iff_toNat]
  tauto

theorem nonws_toLower_nonws (c : Char) (h : jsWs c = false) : jsWs c.toLower = false := by
  unfold Char.toLower
  show jsWs (if c.toNat ≥ 65 ∧ c.toNat ≤ 90 then Char.ofNat (c.toNat + 32) else c) = false
  by_cases hb : c.toNat ≥ 65 ∧ c.toNat ≤ 90
  · rw [if_pos hb]
    have hto : (Char.ofNat (c.toNat + 32)).toNat = c.toNat + 32 :=
      char_toNat_ofNat _ (by omega)
    cases hw : jsWs (Char.ofNat (c.toNat + 32)) with
    | false => rfl
    | true =>
        exfalso
        rcases (jsWs_toNat _).mp hw with hx | hx | hx | hx | hx | hx <;>
          (rw [hto] at hx; omega)
  · rw [if_neg hb]
    exact h

theorem stripPrefixCI_drop : ∀ (pat s r : Str),
    stripPrefixCI pat s = some r → r = s.drop pat.length := by
  intro pat
  induction pat with
  | nil => intro s r h; cases h; rfl
  | cons p ps ih =>
      intro s r h
      cases s with
      | nil => cases h
      | cons c cs =>
          rw [stripPrefixCI] at h
          by_cases hc : c.toLower = p.toLower
          · rw [if_pos hc] at h
            exact ih cs r h
          · rw [if_neg hc] at h
            cases h

/-- Case analysis for a case-insensitive word match against `u ++ z2` where
`u` is whitespace-free and `z2` starts with a space: the match fails, or it
consumes exactly `u` (which then spells the word), or it stops strictly
inside `u`. -/
theorem strip_word_cases : ∀ (pat u z2 : Str),
    (∀ c ∈ pat, jsWs c = false) → z2.head? = some ' ' → (∀ c ∈ u, jsWs c = false) →
    stripPrefixCI pat (u ++ z2) = none ∨
    (toLowerStr u = toLowerStr pat ∧ stripPrefixCI pat (u ++ z2) = some z2) ∨
    (∃ d rest, stripPrefixCI pat (u ++ z2) = some (d :: rest) ∧ jsWs d = false) := by
  intro pat
  induction pat with
  | nil =>
      intro u z2 _ hz hu
      cases u with
      | nil => exact Or.inr (Or.inl ⟨rfl, rfl⟩)
      | cons d du =>
          refine Or.inr (Or.inr ⟨d, du ++ z2, rfl, hu d (List.mem_cons_self d du)⟩)
  | cons p ps ih =>
      intro u z2 hp hz hu
      cases u with
      | nil =>
          cases z2 with
          | nil => cases hz
          | cons zc zr =>
              have hzc : zc = ' ' := by simpa using hz
              subst hzc
              left
              have hne : ¬ (' '.toLower = p.toLower) := by
                intro he
                have hpnws : jsWs p.toLower = false :=
                  nonws_toLower_nonws p (hp p (List.mem_cons_self p ps))
                rw [← he] at hpnws
                exact absurd hpnws (by decide)
              show stripPrefixCI (p :: ps) (' ' :: zr) = none
              rw [stripPrefixCI, if_neg hne]
      | cons d du =>
          have hred : stripPrefixCI (p :: ps) ((d :: du) ++ z2) =
              if d.toLower = p.toLower then stripPrefixCI ps (du ++ z2) else none := by
            rw [List.cons_append, stripPrefixCI]
          rw [hred]
          by_cases hc : d.toLower = p.toLower
          · rw [if_pos hc]
            rcases ih du z2 (fun c hcm => hp c (List.mem_cons_of_mem _ hcm)) hz
                (fun c hcm => hu c (List.mem_cons_of_mem _ hcm)) with h1 | ⟨h2a, h2b⟩ | ⟨d2, r2, h3a, h3b⟩
            · exact Or.inl h1
            · refine Or.inr (Or.inl ⟨?_, h2b⟩)
              show d.toLower :: toLowerStr du = p.toLower :: toLowerStr ps
              rw [hc, h2a]
            · exact Or.inr (Or.inr ⟨d2, r2, h3a, h3b⟩)
          · rw [if_neg hc]
            exact Or.inl rfl

theorem wasWereStep_none (u z2 : Str) (hu : u ≠ [])
    (hnw : ∀ c ∈ u, jsWs c = false)
    (h1 : toLowerStr u ≠ str "was") (h2 : toLowerStr u ≠ str "were")
    (hz : z2.head? = some ' ') : wasWereStep (u ++ z2) = none := by
  have hwasChars : ∀ c ∈ str "was", jsWs c = false := by decide
  have hwereChars : ∀ c ∈ str "were", jsWs c = false := by decide
  unfold wasWereStep
  rcases strip_word_cases (str "was") u z2 hwasChars hz hnw with hA | ⟨hB1, hB2⟩ | ⟨d, r, hC1, hC2⟩
  · rw [hA]
    rcases strip_word_cases (str "were") u z2 hwereChars hz hnw with hD | ⟨hE1, hE2⟩ | ⟨d, r, hF1, hF2⟩
    · rw [show ((none : Option Str).orElse fun _ => stripPrefixCI (str "were") (u ++ z2)) =
          stripPrefixCI (str "were") (u ++ z2) from rfl, hD]
    · rw [show toLowerStr (str "were") = str "were" from by decide] at hE1
      exact absurd hE1 h2
    · rw [show ((none : Option Str).orElse fun _ => stripPrefixCI (str "were") (u ++ z2)) =
          stripPrefixCI (str "were") (u ++ z2) from rfl, hF1]
      show (if jsWs ((d :: r).headD 'x') = true then
        some ((d :: r).dropWhile jsWs) else none) = none
      rw [if_neg (by simp [hF2])]
  · rw [show toLowerStr (str "was") = str "was" from by decide] at hB1
    exact absurd hB1 h1
  · rw [hC1]
    show (if jsWs ((d :: r).headD 'x') = true then
      some ((d :: r).dropWhile jsWs) else none) = none
    rw [if_neg (by simp [hC2])]

/-- A split attempt fails outright when the character at the split position
is not whitespace (the `\s+` after the lazy subject cannot match). -/
theorem p1TryAt_none_of_head (s : Str) (i : Nat)
    (h : jsWs ((s.drop i).headD 'x') = false) : p1TryAt s i = none := by
  unfold p1TryAt
  by_cases hg : (decide (1 ≤ i) && !(s.take i).contains '\n') = true
  · rw [if_pos hg, if_neg (by rw [h]; simp)]
  · rw [if_neg hg]

/-- A split attempt at a space position directly followed by a
whitespace-free word that does not spell `was`/`were` fails at the verb. -/
theorem p1TryAt_none_at_space (s : Str) (i : Nat) (u z2 : Str)
    (hdrop : s.drop i = ' ' :: (u ++ z2)) (hu : u ≠ [])
    (hnw : ∀ c ∈ u, jsWs c = false)
    (h1 : toLowerStr u ≠ str "was") (h2 : toLowerStr u ≠ str "were")
    (hz : z2.head? = some ' ') : p1TryAt s i = none := by
  unfold p1TryAt
  by_cases hg : (decide (1 ≤ i) && !(s.take i).contains '\n') = true
  · rw [if_pos hg, hdrop]
    rw [if_pos (show jsWs ((' ' :: (u ++ z2)).headD 'x') = true from rfl)]
    have hdw : (' ' :: (u ++ z2)).dropWhile jsWs = u ++ z2 := by
      rw [List.dropWhile_cons_of_pos (by decide)]
      cases hu2 : u with
      | nil => exact absurd hu2 hu
      | cons uc ur =>
          rw [List.cons_append,
            List.dropWhile_cons_of_neg (by simp [hnw uc (by rw [hu2]; exact List.mem_cons_self _ _)])]
    rw [hdw, wasWereStep_none u z2 hu hnw h1 h2 hz]
  · rw [if_neg hg]

/-- Every split index strictly inside the joined subject either sits on a
non-whitespace character or on the single space before a later word. -/
theorem subject_shape : ∀ (ws : List Str) (w : Str) (z : Str),
    (∀ u ∈ w :: ws, u ≠ [] ∧ ∀ c ∈ u, jsWs c = false) →
    z.head? = some ' ' →
    ∀ i, 1 ≤ i → i < (joinSep [' '] (w :: ws)).length →
      jsWs (((joinSep [' '] (w :: ws) ++ z).drop i).headD 'x') = false ∨
      ∃ u z2, (joinSep [' '] (w :: ws) ++ z).drop i = ' ' :: (u ++ z2) ∧ u ∈ ws ∧
        z2.head? = some ' ' := by
  intro ws
  induction ws with
  | nil =>
      intro w z hall hz i hi1 hi2
      left
      have hJ : joinSep [' '] [w] = w := rfl
      rw [hJ] at hi2 ⊢
      rw [List.drop_append_of_le_length (by omega)]
      cases hd : w.drop i with
      | nil =>
          exfalso
          rw [List.drop_eq_nil_iff] at hd
          omega
      | cons c cr =>
          have hc : c ∈ w := by
            have : c ∈ w.drop i := by rw [hd]; exact List.mem_cons_self _ _
            exact List.drop_subset _ _ this
          cases hrest : cr ++ z with
          | nil =>
              exfalso
              cases z with
              | nil => cases hz
              | cons a b => simp at hrest
          | cons e er =>
              rw [List.cons_append, hrest]
              show jsWs ((c :: er).headD 'x') = false
              exact (hall w (List.mem_cons_self _ _)).2 c hc
  | cons w1 rest ih =>
      intro w z hall hz i hi1 hi2
      have hJ : joinSep [' '] (w :: w1 :: rest) = w ++ ' ' :: joinSep [' '] (w1 :: rest) := by
        show w ++ [' '] ++ joinSep [' '] (w1 :: rest) = _
        rw [List.append_assoc]
        rfl
      rw [hJ] at hi2 ⊢
      have hw := hall w (List.mem_cons_self _ _)
      rcases Nat.lt_trichotomy i w.length with hlt | heq | hgt
      · left
        rw [List.append_assoc, List.drop_append_of_le_length (by omega)]
        cases hd : w.drop i with
        | nil =>
            exfalso
            rw [List.drop_eq_nil_iff] at hd
            omega
        | cons c cr =>
            have hc : c ∈ w := by
              have : c ∈ w.drop i := by rw [hd]; exact List.mem_cons_self _ _
              exact List.drop_subset _ _ this
            rw [List.cons_append]
            show jsWs ((c :: (cr ++ (' ' :: joinSep [' '] (w1 :: rest) ++ z))).headD 'x') = false
            exact hw.2 c hc
      · right
        subst heq
        rw [List.append_assoc, List.drop_left]
        have hw1 := hall w1 (List.mem_cons_of_mem _ (List.mem_cons_self _ _))
        cases rest with
        | nil =>
            refine ⟨w1, z, ?_, List.mem_cons_self _ _, hz⟩
            rfl
        | cons w2 rest2 =>
            refine ⟨w1, ' ' :: (joinSep [' '] (w2 :: rest2) ++ z), ?_, List.mem_cons_self _ _, rfl⟩
            show (' ' :: joinSep [' '] (w1 :: w2 :: rest2)) ++ z = _
            have hJ2 : joinSep [' '] (w1 :: w2 :: rest2) =
                w1 ++ ' ' :: joinSep [' '] (w2 :: rest2) := by
              show w1 ++ [' '] ++ joinSep [' '] (w2 :: rest2) = _
              rw [List.append_assoc]
              rfl
            rw [hJ2]
            simp
      · have hi' : i = w.length + 1 + (i - w.length - 1) := by omega
        have hdrop2 : (w ++ ' ' :: joinSep [' '] (w1 :: rest) ++ z).drop i =
            (joinSep [' '] (w1 :: rest) ++ z).drop (i - w.length - 1) := by
          rw [List.append_assoc]
          conv_lhs => rw [hi']
          rw [← List.drop_drop, ← List.drop_drop, List.drop_left]
          rfl
        rw [hdrop2]
        rcases Nat.lt_or_ge (i - w.length - 1) 1 with hz1 | hz1
        · left
          have hz0 : i - w.length - 1 = 0 := by omega
          rw [hz0, List.drop_zero]
          have hw1 := hall w1 (List.mem_cons_of_mem _ (List.mem_cons_self _ _))
          obtain ⟨T, hT⟩ : ∃ T, joinSep [' '] (w1 :: rest) = w1 ++ T := by
            cases rest with
            | nil => exact ⟨[], by simp [joinSep]⟩
            | cons w2 r2 =>
                refine ⟨' ' :: joinSep [' '] (w2 :: r2), ?_⟩
                show w1 ++ [' '] ++ joinSep [' '] (w2 :: r2) = _
                rw [List.append_assoc]
                rfl
          rw [hT]
          cases hu2 : w1 with
          | nil => exact absurd hu2 hw1.1
          | cons uc ur =>
              rw [List.append_assoc, List.cons_append]
              show jsWs ((uc :: (ur ++ (T ++ z))).headD 'x') = false
              exact hw1.2 uc (by rw [hu2]; exact List.mem_cons_self _ _)
        · have hlen : i - w.length - 1 < (joinSep [' '] (w1 :: rest)).length := by
            have : (w ++ ' ' :: joinSep [' '] (w1 :: rest)).length =
                w.length + 1 + (joinSep [' '] (w1 :: rest)).length := by
              simp
              omega
            omega
          have := ih w1 z (fun u hu => hall u (List.mem_cons_of_mem _ hu)) hz
            (i - w.length - 1) hz1 hlen
          rcases this with hl | ⟨u, z2, he, hm, hz2⟩
          · exact Or.inl hl
          · exact Or.inr ⟨u, z2, he, List.mem_cons_of_mem _ hm, hz2⟩

/-- The lazy-subject loop returns the first succeeding split. -/
theorem firstSplit_spec (t : Nat → Option (Str × Str × Str)) (r : Str × Str × Str) :
    ∀ (k i fuel : Nat), (∀ j, j < k → t (i + j) = none) → t (i + k) = some r →
      k < fuel → firstSplit t fuel i = some r := by
  intro k
  induction k with
  | zero =>
      intro i fuel _ hs hf
      cases fuel with
      | zero => omega
      | succ f =>
          rw [firstSplit]
          rw [show i + 0 = i from rfl] at hs
          rw [hs]
  | succ k ih =>
      intro i fuel hfail hs hf
      cases fuel with
      | zero => omega
      | succ f =>
          rw [firstSplit]
          have h0 : t i = none := by
            have := hfail 0 (by omega)
            simpa using this
          rw [h0]
          refine ih (i + 1) f ?_ ?_ (by omega)
          · intro j hj
            have := hfail (j + 1) (by omega)
            rwa [show i + (j + 1) = i + 1 + j by omega] at this
          · rwa [show i + 1 + k = i + (k + 1) by omega]

/-- Words joined by single spaces. -/
theorem joinSep_cons_cons (x y : Str) (t : List Str) :
    joinSep [' '] (x :: y :: t) = x ++ ' ' :: joinSep [' '] (y :: t) := by
  show x ++ [' '] ++ joinSep [' '] (y :: t) = _
  rw [List.append_assoc]
  rfl

theorem joinSep_ne_nil (w : Str) (ws : List Str) (hw : w ≠ []) :
    joinSep [' '] (w :: ws) ≠ [] := by
  cases ws with
  | nil => exact hw
  | cons y t =>
      rw [joinSep_cons_cons]
      cases hw2 : w with
      | nil => exact absurd hw2 hw
      | cons c cs => simp

theorem mem_joinSep_words (c : Char) :
    ∀ (l : List Str), c ∈ joinSep [' '] l → c = ' ' ∨ ∃ u ∈ l, c ∈ u := by
  intro l
  induction l with
  | nil => intro h; cases h
  | cons w t ih =>
      intro h
      cases t with
      | nil =>
          exact Or.inr ⟨w, List.mem_cons_self _ _, h⟩
      | cons y t2 =>
          rw [joinSep_cons_cons] at h
          rcases List.mem_append.mp h with hw | hrest
          · exact Or.inr ⟨w, List.mem_cons_self _ _, hw⟩
          · rcases List.mem_cons.mp hrest with he | hm
            · exact Or.inl he
            · rcases ih hm with he | ⟨u, hu, hc⟩
              · exact Or.inl he
              · exact Or.inr ⟨u, List.mem_cons_of_mem _ hu, hc⟩

theorem joinSep_getLast (w : Str) (ws : List Str)
    (hall : ∀ u ∈ w :: ws, u ≠ []) :
    ∃ u e, u ∈ w :: ws ∧ (joinSep [' '] (w :: ws)).getLast? = some e ∧ e ∈ u := by
  induction ws generalizing w with
  | nil =>
      have hw := hall w (List.mem_cons_self _ _)
      cases hlast : w.getLast? with
      | none =>
          exfalso
          cases hw2 : w with
          | nil => exact hw hw2
          | cons c cs => rw [hw2] at hlast; simp at hlast
      | some e =>
          exact ⟨w, e, List.mem_cons_self _ _, hlast,
            List.mem_of_getLast?_eq_some hlast⟩
  | cons y t ih =>
      obtain ⟨u, e, hu, hg, he⟩ := ih y (fun v hv => hall v (List.mem_cons_of_mem _ hv))
      refine ⟨u, e, List.mem_cons_of_mem _ hu, ?_, he⟩
      rw [joinSep_cons_cons, List.getLast?_append]
      have : (' ' :: joinSep [' '] (y :: t)).getLast? = some e := by
        rw [List.getLast?_cons]
        rw [hg]
        rfl
      rw [this]
      rfl

theorem trim_eq_self (l : Str) (c e : Char)
    (hh : l.head? = some c) (hc : jsWs c = false)
    (hg : l.getLast? = some e) (he : jsWs e = false) : trimStr l = l := by
  unfold trimStr
  cases hl : l with
  | nil => rfl
  | cons x xs =>
      rw [hl] at hh hg
      have hx : x = c := by simpa using hh
      subst hx
      rw [List.dropWhile_cons_of_neg (by simp [hc])]
      have hrev : (x :: xs).reverse.head? = some e := by
        rw [List.head?_reverse]
        exact hg
      cases hr : (x :: xs).reverse with
      | nil => simp at hr
      | cons y ys =>
          rw [hr] at hrev
          have hy : y = e := by simpa using hrev
          subst hy
          rw [List.dropWhile_cons_of_neg (by simp [he])]
          rw [← hr, List.reverse_reverse]

theorem trim_cons_ws (c : Char) (t : Str) (h : jsWs c = true) :
    trimStr (c :: t) = trimStr t := by
  unfold trimStr
  rw [List.dropWhile_cons_of_pos h]

theorem joinSep_head (w : Str) (ws : List Str) (c : Char) (cs : Str)
    (hw : w = c :: cs) : (joinSep [' '] (w :: ws)).head? = some c := by
  cases ws with
  | nil => rw [show joinSep [' '] [w] = w from rfl, hw]; rfl
  | cons y t => rw [joinSep_cons_cons, hw]; rfl

/-- With no newline in `tail`, the `(.*)$` tail after the participle captures
the whole remainder `' ' :: tail`. -/
theorem matchDollarTail_ws_tail (tail : Str) (htail : ∀ c ∈ tail, c ≠ '\n') :
    matchDollarTail (' ' :: tail) = some (' ' :: tail) := by
  unfold matchDollarTail
  have h1 : (' ' :: tail).dropWhile (fun c => decide (c ≠ '\n')) = [] := by
    rw [List.dropWhile_cons_of_pos (by decide)]
    exact List.dropWhile_eq_nil_iff.mpr (fun c hc => by simp [htail c hc])
  rw [h1]
  show some ((' ' :: tail).takeWhile (fun c => decide (c ≠ '\n'))) = some (' ' :: tail)
  have h2 : (' ' :: tail).takeWhile (fun c => decide (c ≠ '\n')) = ' ' :: tail :=
    List.takeWhile_eq_self_iff.mpr (fun c hc => by
      rcases List.mem_cons.mp hc with h | h
      · subst h; decide
      · simp [htail c h])
  rw [h2]

/-- The participle alternation matches `completed` at the head of
`"completed " ++ tail`. -/
theorem matchPPTail_completed (tail : Str) (htail : ∀ c ∈ tail, c ≠ '\n') :
    matchPPTail (str "completed " ++ tail) = some (str "completed", ' ' :: tail) := by
  have e1 : stripPrefixCI (str "completed") (str "completed " ++ tail) =
      some (' ' :: tail) := rfl
  unfold matchPPTail
  show matchPPTail.go (str "completed " ++ tail)
      (str "completed" :: [str "implemented", str "performed", str "reviewed",
        str "approved", str "identified", str "documented"]) =
    some (str "completed", ' ' :: tail)
  rw [matchPPTail.go]
  rw [e1]
  show (if !wordOpt ((' ' :: tail).head?) then
          match matchDollarTail (' ' :: tail) with
          | some m4 => some ((str "completed " ++ tail).take (str "completed").length, m4)
          | none => none
        else none) = some (str "completed", ' ' :: tail)
  rw [if_pos (show (!wordOpt ((' ' :: tail).head?)) = true from rfl)]
  rw [matchDollarTail_ws_tail tail htail]
  rfl

/-- Pattern 1 succeeds at the split index placed exactly at the end of the
subject in `<X> was not completed <tail>`. -/
theorem p1TryAt_at_subject (X tail : Str) (hX1 : 1 ≤ X.length)
    (hXn : '\n' ∉ X) (htail : ∀ c ∈ tail, c ≠ '\n') :
    p1TryAt (X ++ (str " was not completed " ++ tail)) X.length =
      some (X, str "completed", ' ' :: tail) := by
  have htake : (X ++ (str " was not completed " ++ tail)).take X.length = X :=
    List.take_left _ _
  have hdropX : (X ++ (str " was not completed " ++ tail)).drop X.length =
      str " was not completed " ++ tail := List.drop_left _ _
  have hcont : X.contains '\n' = false := by simpa using hXn
  unfold p1TryAt
  rw [htake, hdropX]
  rw [if_pos (show (decide (1 ≤ X.length) && !X.contains '\n') = true by
        rw [hcont]; simp [hX1])]
  rw [if_pos (show jsWs ((str " was not completed " ++ tail).headD 'x') = true from rfl)]
  have h1 : (str " was not completed " ++ tail).dropWhile jsWs =
      str "was not completed " ++ tail := by
    show (' ' :: (str "was not completed " ++ tail)).dropWhile jsWs =
      str "was not completed " ++ tail
    rw [List.dropWhile_cons_of_pos (by decide)]
    show ('w' :: (str "as not completed " ++ tail)).dropWhile jsWs =
      'w' :: (str "as not completed " ++ tail)
    rw [List.dropWhile_cons_of_neg (by decide)]
  have h2 : wasWereStep (str "was not completed " ++ tail) =
      some (str "not completed " ++ tail) := rfl
  rw [h1, h2]
  show (match matchPPTail (str "completed " ++ tail) with
        | some (pp, m4) => some (X, pp, m4)
        | none => none) = some (X, str "completed", ' ' :: tail)
  rw [matchPPTail_completed tail htail]

/-- On `<X> was not completed <tail>` with `X` a single-space join of
whitespace-free nonempty words none of which spells `was`/`were`, the
pattern-1 search returns exactly the subject `X`, participle `completed` and
tail `' ' :: tail`. -/
theorem firstMatchP1_subject (w : Str) (ws : List Str) (tail : Str)
    (hgood : ∀ u ∈ w :: ws, u ≠ [] ∧ (∀ c ∈ u, jsWs c = false) ∧
      toLowerStr u ≠ str "was" ∧ toLowerStr u ≠ str "were")
    (htail : ∀ c ∈ tail, c ≠ '\n') :
    firstMatchP1 (joinSep [' '] (w :: ws) ++ (str " was not completed " ++ tail)) =
      some (joinSep [' '] (w :: ws), str "completed", ' ' :: tail) := by
  have hJne : joinSep [' '] (w :: ws) ≠ [] :=
    joinSep_ne_nil w ws (hgood w (List.mem_cons_self _ _)).1
  have hJlen : 1 ≤ (joinSep [' '] (w :: ws)).length :=
    List.length_pos.mpr hJne
  have hJn : '\n' ∉ joinSep [' '] (w :: ws) := by
    intro hmem
    rcases mem_joinSep_words '\n' (w :: ws) hmem with he | ⟨u, hu, hc⟩
    · exact absurd he (by decide)
    · have hf := (hgood u hu).2.1 '\n' hc
      exact absurd hf (by decide)
  unfold firstMatchP1
  refine firstSplit_spec _ _ ((joinSep [' '] (w :: ws)).length - 1) 1 _ ?_ ?_ ?_
  · intro j hj
    have hi1 : 1 ≤ 1 + j := by omega
    have hi2 : 1 + j < (joinSep [' '] (w :: ws)).length := by omega
    rcases subject_shape ws w (str " was not completed " ++ tail)
        (fun u hu => ⟨(hgood u hu).1, (hgood u hu).2.1⟩) rfl (1 + j) hi1 hi2 with
      hA | ⟨u, z2, hd, hu, hz2⟩
    · exact p1TryAt_none_of_head _ _ hA
    · exact p1TryAt_none_at_space _ _ u z2 hd
        (hgood u (List.mem_cons_of_mem _ hu)).1
        (hgood u (List.mem_cons_of_mem _ hu)).2.1
        (hgood u (List.mem_cons_of_mem _ hu)).2.2.1
        (hgood u (List.mem_cons_of_mem _ hu)).2.2.2 hz2
  · rw [show 1 + ((joinSep [' '] (w :: ws)).length - 1) =
        (joinSep [' '] (w :: ws)).length by omega]
    exact p1TryAt_at_subject _ tail hJlen hJn htail
  · rw [List.length_append]
    have hpos : 0 < (str " was not completed " ++ tail).length := by
      rw [List.length_append]
      have : (str " was not completed ").length = 19 := rfl
      omega
    omega

/-- When the owner is present and nonempty, `clearOwnership` is on and
pattern 1 matches, the converter rebuilds the sentence from the owner, the
base verb, the trimmed subject and the stripped tail. -/
theorem convertPassive_p1 (s o : Str) (aud : Bool) (ho : o.isEmpty = false)
    (sub pp m4 : Str) (hfm : firstMatchP1 s = some (sub, pp, m4)) :
    convertPassiveToActiveSafe s (some o) true aud =
      { converted := true
      , sentence := o ++ str " did not " ++ toBaseVerb (toLowerStr pp) ++ [' '] ++
          trimStr sub ++
          (if (stripByTail m4).isEmpty then [] else ' ' :: stripByTail m4)
      , suggestion := none } := by
  unfold convertPassiveToActiveSafe
  show (if o.isEmpty = true then ({ converted := false, sentence := s, suggestion := none } : ConvertResult)
        else
          match firstMatchP1 s with
          | some (subject, pp, m4) =>
              let base := toBaseVerb (toLowerStr pp)
              let tl := stripByTail m4
              ({ converted := true
               , sentence := o ++ str " did not " ++ base ++ [' '] ++ trimStr subject ++
                   (if tl.isEmpty then [] else ' ' :: tl)
               , suggestion := none } : ConvertResult)
          | none =>
              match firstMatchP2 s with
              | some (subject, pp, m4) =>
                  let tl := stripByTail m4
                  ({ converted := true
                   , sentence := o ++ [' '] ++ toLowerStr pp ++ [' '] ++ trimStr subject ++
                       (if tl.isEmpty then [] else ' ' :: tl)
                   , suggestion := none } : ConvertResult)
              | none =>
                  if aud then
                    ({ converted := false, sentence := s
                     , suggestion := some (str "Active voice not applied (audit-safe): only strict, meaning-preserving patterns are converted.") } : ConvertResult)
                  else ({ converted := false, sentence := s, suggestion := none } : ConvertResult)) =
    ({ converted := true
     , sentence := o ++ str " did not " ++ toBaseVerb (toLowerStr pp) ++ [' '] ++
         trimStr sub ++
         (if (stripByTail m4).isEmpty then [] else ' ' :: stripByTail m4)
     , suggestion := none } : ConvertResult)
  rw [if_neg (by simp [ho])]
  rw [hfm]

/-- C3: for input of the form `<X> was not completed <tail>` — `X` a
single-space join of nonempty, whitespace-free words none of which spells
`was` or `were`, `tail` newline-free — with owner `Operations` and
`clearOwnership` enabled, the safe passive-to-active conversion returns
exactly `Operations did not complete <X>` followed by the tail with any
leading `by ...` prefix removed; and on a concrete such input the full
`rewrite` pipeline's rewrittenText contains `operations did not complete the
backup` case-insensitively, the `by the vendor.` tail having been dropped. -/
theorem claim_C3_explicit_negation_conversion
    (w : Str) (ws : List Str) (tail : Str) (aud : Bool)
    (hgood : ∀ u ∈ w :: ws, u ≠ [] ∧ (∀ c ∈ u, jsWs c = false) ∧
      toLowerStr u ≠ str "was" ∧ toLowerStr u ≠ str "were")
    (htail : ∀ c ∈ tail, c ≠ '\n') :
    convertPassiveToActiveSafe
        (joinSep [' '] (w :: ws) ++ (str " was not completed " ++ tail))
        (some (str "Operations")) true aud =
      { converted := true
      , sentence := str "Operations did not complete " ++ joinSep [' '] (w :: ws) ++
          (if (stripByTail (' ' :: tail)).isEmpty then []
           else ' ' :: stripByTail (' ' :: tail))
      , suggestion := none }
    ∧ containsSub (toLowerStr (str "operations did not complete the backup"))
        (toLowerStr (rewrite (str "The backup was not completed by the vendor.")
          baseOptions []).rewrittenText) = true := by
  constructor
  · have hfm := firstMatchP1_subject w ws tail hgood htail
    obtain ⟨u, e, hu, hgl, hein⟩ :=
      joinSep_getLast w ws (fun v hv => (hgood v hv).1)
    have hef : jsWs e = false := (hgood u hu).2.1 e hein
    obtain ⟨cw, cws, hw0⟩ : ∃ c cs, w = c :: cs := by
      cases hw : w with
      | nil => exact absurd hw (hgood w (List.mem_cons_self _ _)).1
      | cons c cs => exact ⟨c, cs, rfl⟩
    have hhead : (joinSep [' '] (w :: ws)).head? = some cw :=
      joinSep_head w ws cw cws hw0
    have hcwf : jsWs cw = false :=
      (hgood w (List.mem_cons_self _ _)).2.1 cw (by rw [hw0]; exact List.mem_cons_self _ _)
    have htr : trimStr (joinSep [' '] (w :: ws)) = joinSep [' '] (w :: ws) :=
      trim_eq_self _ cw e hhead hcwf hgl hef
    rw [convertPassive_p1 _ _ _ (by decide) _ _ _ hfm, htr]
    rfl
  · decide

/-- Witness for C3 at `The data classification project was not completed as
planned`. -/
theorem claim_C3_witness :
    convertPassiveToActiveSafe
        (str "The data classification project was not completed as planned")
        (some (str "Operations")) true true =
      { converted := true
      , sentence := str "Operations did not complete The data classification project as planned"
      , suggestion := none } := by
  have h := claim_C3_explicit_negation_conversion (str "The")
      [str "data", str "classification", str "project"] (str "as planned") true
      (by decide) (by decide)
  exact h.1

/-! ## Claim C2: the standalone-`not` scanner and its theory -/

theorem head?_append_some (x y : Str) (c : Char) (h : x.head? = some c) :
    (x ++ y).head? = some c := by
  cases x with
  | nil => simp at h
  | cons d t => simpa using h

theorem getLast?_append_some (x y : Str) (e : Char) (h : y.getLast? = some e) :
    (x ++ y).getLast? = some e := by
  rw [← List.head?_reverse] at h ⊢
  rw [List.reverse_append]
  exact head?_append_some _ _ _ h

theorem getLast?_of_ne_nil (l : Str) (h : l ≠ []) :
    ∃ e, l.getLast? = some e ∧ e ∈ l := by
  cases hr : l.reverse with
  | nil => exact absurd (by simpa using congrArg List.reverse hr) h
  | cons e t =>
      refine ⟨e, ?_, ?_⟩
      · rw [← List.head?_reverse, hr]; rfl
      · have : e ∈ l.reverse := by rw [hr]; exact List.mem_cons_self _ _
        exact List.mem_reverse.mp this

theorem toLower_shape (c : Char) :
    c.toLower = c ∨
    (65 ≤ c.toNat ∧ c.toNat ≤ 90 ∧ (c.toLower).toNat = c.toNat + 32) := by
  unfold Char.toLower
  show (if c.toNat ≥ 65 ∧ c.toNat ≤ 90 then Char.ofNat (c.toNat + 32) else c) = c ∨ _
  by_cases hb : c.toNat ≥ 65 ∧ c.toNat ≤ 90
  · right
    refine ⟨hb.1, hb.2, ?_⟩
    show (if c.toNat ≥ 65 ∧ c.toNat ≤ 90 then Char.ofNat (c.toNat + 32) else c).toNat = _
    rw [if_pos hb]
    exact char_toNat_ofNat _ (by omega)
  · left
    rw [if_neg hb]

/-- A character whose lowercase form is an ASCII lowercase letter is itself a
word character and not whitespace. -/
theorem token_char_facts (c d : Char) (h : c.toLower = d)
    (hd : 97 ≤ d.toNat ∧ d.toNat ≤ 122) : jsWs c = false ∧ isWordChar c = true := by
  have hdn : c.toLower.toNat = d.toNat := by rw [h]
  rcases toLower_shape c with h0 | ⟨h1, h2, h3⟩
  · rw [h0] at hdn
    constructor
    · cases hw : jsWs c with
      | false => rfl
      | true =>
          exfalso
          rcases (jsWs_toNat c).mp hw with hx | hx | hx | hx | hx | hx <;> omega
    · have : (97 ≤ c.toNat && c.toNat ≤ 122) = true := by
        rw [Bool.and_eq_true]; exact ⟨by simpa using by omega, by simpa using by omega⟩
      unfold isWordChar
      rw [this]
      rfl
  · rw [h3] at hdn
    constructor
    · cases hw : jsWs c with
      | false => rfl
      | true =>
          exfalso
          rcases (jsWs_toNat c).mp hw with hx | hx | hx | hx | hx | hx <;> omega
    · have : (65 ≤ c.toNat && c.toNat ≤ 90) = true := by
        rw [Bool.and_eq_true]; exact ⟨by simpa using h1, by simpa using h2⟩
      unfold isWordChar
      rw [this]
      simp

theorem toLower_toLower (c : Char) : c.toLower.toLower = c.toLower := by
  rcases toLower_shape c with h | ⟨h1, h2, h3⟩
  · rw [h, h]
  · rcases toLower_shape c.toLower with h' | ⟨h1', h2', h3'⟩
    · exact h'
    · exfalso; omega

theorem toLowerStr_idem (x : Str) : toLowerStr (toLowerStr x) = toLowerStr x := by
  induction x with
  | nil => rfl
  | cons c t ih =>
      show c.toLower.toLower :: toLowerStr (toLowerStr t) = c.toLower :: toLowerStr t
      rw [toLower_toLower, ih]

theorem token_shape (n : Str) (hn : toLowerStr n = str "not") :
    ∃ c1 c2 c3, n = [c1, c2, c3] ∧
      c1.toLower = 'n' ∧ c2.toLower = 'o' ∧ c3.toLower = 't' := by
  have hlen : n.length = 3 := by
    have h := congrArg List.length hn
    simpa [toLowerStr] using h
  match n, hlen with
  | [c1, c2, c3], _ =>
      have hs : str "not" = ['n', 'o', 't'] := by decide
      rw [hs] at hn
      have hn2 : [c1.toLower, c2.toLower, c3.toLower] = ['n', 'o', 't'] := hn
      simp at hn2
      exact ⟨c1, c2, c3, rfl, hn2.1, hn2.2.1, hn2.2.2⟩

theorem token_facts (n : Str) (hn : toLowerStr n = str "not") :
    n ≠ [] ∧ (∀ c ∈ n, jsWs c = false) ∧
      ∃ c1, n.head? = some c1 ∧ isWordChar c1 = true := by
  obtain ⟨c1, c2, c3, he, h1, h2, h3⟩ := token_shape n hn
  subst he
  have f1 := token_char_facts c1 'n' h1 (by decide)
  have f2 := token_char_facts c2 'o' h2 (by decide)
  have f3 := token_char_facts c3 't' h3 (by decide)
  refine ⟨by simp, ?_, c1, rfl, f1.2⟩
  intro c hc
  simp at hc
  rcases hc with rfl | rfl | rfl
  · exact f1.1
  · exact f2.1
  · exact f3.1

theorem stripPrefixCI_take_toLower : ∀ (pat s r : Str), stripPrefixCI pat s = some r →
    toLowerStr (s.take pat.length) = toLowerStr pat ∧ s = s.take pat.length ++ r := by
  intro pat
  induction pat with
  | nil =>
      intro s r h
      have h2 : some s = some r := h
      injection h2 with h2
      subst h2
      exact ⟨rfl, rfl⟩
  | cons p ps ih =>
      intro s r h
      cases s with
      | nil => cases h
      | cons c cs =>
          rw [stripPrefixCI] at h
          by_cases hc : c.toLower = p.toLower
          · rw [if_pos hc] at h
            obtain ⟨h1, h2⟩ := ih cs r h
            constructor
            · show c.toLower :: toLowerStr (cs.take ps.length) = p.toLower :: toLowerStr ps
              rw [hc, h1]
            · show c :: cs = c :: (cs.take ps.length ++ r)
              rw [← h2]
          · rw [if_neg hc] at h
            cases h

theorem stripPrefixCI_of_toLower : ∀ (pat n rest : Str),
    toLowerStr n = toLowerStr pat → stripPrefixCI pat (n ++ rest) = some rest := by
  intro pat
  induction pat with
  | nil =>
      intro n rest h
      have : n = [] := by simpa [toLowerStr] using h
      subst this
      rfl
  | cons p ps ih =>
      intro n rest h
      cases n with
      | nil => simp [toLowerStr] at h
      | cons c cs =>
          have h2 : c.toLower = p.toLower ∧ toLowerStr cs = toLowerStr ps := by
            have : c.toLower :: toLowerStr cs = p.toLower :: toLowerStr ps := h
            exact ⟨by injection this, by injection this⟩
          show (if c.toLower = p.toLower then stripPrefixCI ps (cs ++ rest) else none) = some rest
          rw [if_pos h2.1]
          exact ih cs rest h2.2

theorem containsSub_middle : ∀ (a x r : Str), containsSub x (a ++ (x ++ r)) = true := by
  intro a
  induction a with
  | nil =>
      intro x r
      cases x with
      | nil =>
          cases r with
          | nil => rfl
          | cons c cs =>
              show ([] : Str).isPrefixOf (c :: cs) || containsSub [] cs = true
              simp [List.isPrefixOf]
      | cons c cs =>
          show containsSub (c :: cs) (c :: (cs ++ r)) = true
          rw [containsSub]
          have hp : (c :: cs).isPrefixOf (c :: cs ++ r) = true :=
            List.isPrefixOf_iff_prefix.mpr (List.prefix_append _ _)
          rw [show (c :: cs ++ r) = c :: (cs ++ r) from rfl] at hp
          rw [hp]
          rfl
  | cons d a' ih =>
      intro x r
      show containsSub x (d :: (a' ++ (x ++ r))) = true
      rw [containsSub, ih x r]
      simp

theorem tokenIn_containsSub (x : Str) (h : tokenIn x) :
    containsSub (str "not") (toLowerStr x) = true := by
  obtain ⟨a, n, r, he, hn, _, _⟩ := h
  rw [he]
  rw [show toLowerStr (a ++ n ++ r) = toLowerStr a ++ (toLowerStr n ++ toLowerStr r) by
    simp [toLowerStr]]
  rw [hn]
  exact containsSub_middle _ _ _

/-- Soundness of the scanner: a hit yields a token decomposition, with the
scan's carried previous character standing in for the left context at the
string start. -/
theorem scanNot_sound : ∀ (s : Str) (prev : Option Char), scanNot prev s = true →
    ∃ a n r, s = a ++ n ++ r ∧ toLowerStr n = str "not" ∧
      ((a = [] ∧ (prev = none ∨ ∃ e, prev = some e ∧ jsWs e = true)) ∨
        ∃ e, a.getLast? = some e ∧ jsWs e = true) ∧
      (r = [] ∨ ∃ c, r.head? = some c ∧ jsWs c = true) := by
  intro s
  induction s with
  | nil => intro prev h; rw [scanNot] at h; cases h
  | cons c cs ih =>
      intro prev h
      rw [scanNot] at h
      rcases Bool.or_eq_true_iff.mp h with h1 | h2
      · unfold notAt at h1
        rw [Bool.and_eq_true] at h1
        obtain ⟨hp, hq⟩ := h1
        cases hsp : stripPrefixCI (str "not") (c :: cs) with
        | none => rw [hsp] at hq; simp at hq
        | some r0 =>
            rw [hsp] at hq
            obtain ⟨h1t, h2t⟩ := stripPrefixCI_take_toLower (str "not") (c :: cs) r0 hsp
            refine ⟨[], (c :: cs).take (str "not").length, r0, by simpa using h2t,
              by rw [h1t]; decide, Or.inl ⟨rfl, ?_⟩, ?_⟩
            · cases prev with
              | none => exact Or.inl rfl
              | some e => exact Or.inr ⟨e, rfl, hp⟩
            · have hq2 : (match r0.head? with | none => true | some c => jsWs c) = true := hq
              cases hh : r0.head? with
              | none => exact Or.inl (List.head?_eq_none_iff.mp hh)
              | some d =>
                  rw [hh] at hq2
                  exact Or.inr ⟨d, rfl, hq2⟩
      · obtain ⟨a, n, r, he, hn, hb, ha⟩ := ih (some c) h2
        refine ⟨c :: a, n, r, by rw [show (c :: a) ++ n ++ r = c :: (a ++ n ++ r) by simp, ← he],
          hn, ?_, ha⟩
        rcases hb with ⟨ha0, hprev⟩ | ⟨e, hgl, hw⟩
        · subst ha0
          rcases hprev with h0 | ⟨e, heq, hw⟩
          · cases h0
          · injection heq with heq
            subst heq
            exact Or.inr ⟨c, by simp, hw⟩
        · exact Or.inr ⟨e, getLast?_append_some [c] a e hgl, hw⟩

theorem hasNotToken_tokenIn (s : Str) (h : hasNotToken s = true) : tokenIn s := by
  obtain ⟨a, n, r, he, hn, hb, ha⟩ := scanNot_sound s none h
  refine ⟨a, n, r, he, hn, ?_, ha⟩
  rcases hb with ⟨ha0, _⟩ | hws
  · exact Or.inl ha0
  · exact Or.inr hws

theorem scanNot_app : ∀ (a t : Str) (prev : Option Char) (e : Char),
    a.getLast? = some e → t ≠ [] → notAt (some e) t = true →
    scanNot prev (a ++ t) = true := by
  intro a
  induction a with
  | nil => intro t prev e hgl; simp at hgl
  | cons c a' ih =>
      intro t prev e hgl ht hn
      show scanNot prev (c :: (a' ++ t)) = true
      rw [scanNot]
      refine Bool.or_eq_true_iff.mpr (Or.inr ?_)
      cases ha' : a' with
      | nil =>
          subst ha'
          have hec : c = e := by simpa using hgl
          subst hec
          cases t with
          | nil => exact absurd rfl ht
          | cons d t' =>
              show scanNot (some c) (d :: t') = true
              rw [scanNot]
              exact Bool.or_eq_true_iff.mpr (Or.inl hn)
      | cons f a'' =>
          subst ha'
          have hgl2 : (f :: a'').getLast? = some e := by
            rw [List.getLast?_cons_cons] at hgl
            exact hgl
          exact ih t (some c) e hgl2 ht hn

theorem tokenIn_hasNot (s : Str) (h : tokenIn s) : hasNotToken s = true := by
  obtain ⟨a, n, r, he, hn, hb, ha⟩ := h
  obtain ⟨hne, _, _⟩ := token_facts n hn
  have hstrip : stripPrefixCI (str "not") (n ++ r) = some r :=
    stripPrefixCI_of_toLower _ _ _ (by rw [hn]; decide)
  have hnotAt : ∀ prev, (match prev with | none => true | some c => jsWs c) = true →
      notAt prev (n ++ r) = true := by
    intro prev hp
    unfold notAt
    rw [Bool.and_eq_true]
    refine ⟨hp, ?_⟩
    rw [hstrip]
    show (match r.head? with | none => true | some c => jsWs c) = true
    rcases ha with h0 | ⟨c, hh, hw⟩
    · subst h0; rfl
    · rw [hh]; exact hw
  have hnr : n ++ r ≠ [] := by
    intro h0
    exact hne (List.append_eq_nil.mp h0).1
  subst he
  unfold hasNotToken
  rw [List.append_assoc]
  rcases hb with hb0 | ⟨e, hgl, hw⟩
  · subst hb0
    show scanNot none (n ++ r) = true
    cases hc : n ++ r with
    | nil => exact absurd hc hnr
    | cons d t =>
        rw [scanNot]
        exact Bool.or_eq_true_iff.mpr (Or.inl (by rw [← hc]; exact hnotAt none rfl))
  · exact scanNot_app a (n ++ r) none e hgl hnr (hnotAt (some e) hw)

theorem tokenIn_nil : ¬ tokenIn ([] : Str) := by
  rintro ⟨a, n, r, he, hn, -, -⟩
  obtain ⟨hne, -, -⟩ := token_facts n hn
  have h2 := List.append_eq_nil.mp he.symm
  exact hne (List.append_eq_nil.mp h2.1).2

/-- Embed a token decomposition of a middle segment into the surrounding
string, provided the segment's boundaries carry the needed context. -/
theorem tokenIn_assemble (s pre a n r post : Str)
    (hs : s = pre ++ (a ++ n ++ r) ++ post) (hn : toLowerStr n = str "not")
    (hbefore : (pre = [] ∧ a = []) ∨
      (a = [] ∧ ∃ e, pre.getLast? = some e ∧ jsWs e = true) ∨
      (∃ e, a.getLast? = some e ∧ jsWs e = true))
    (hafter : (post = [] ∧ r = []) ∨
      (r = [] ∧ ∃ c, post.head? = some c ∧ jsWs c = true) ∨
      (∃ c, r.head? = some c ∧ jsWs c = true)) :
    tokenIn s := by
  refine ⟨pre ++ a, n, r ++ post, ?_, hn, ?_, ?_⟩
  · rw [hs]; simp [List.append_assoc]
  · rcases hbefore with ⟨h1, h2⟩ | ⟨h1, e, hgl, hw⟩ | ⟨e, hgl, hw⟩
    · subst h1; subst h2; exact Or.inl rfl
    · subst h1; exact Or.inr ⟨e, by rw [List.append_nil]; exact hgl, hw⟩
    · exact Or.inr ⟨e, getLast?_append_some pre a e hgl, hw⟩
  · rcases hafter with ⟨h1, h2⟩ | ⟨h1, c, hh, hw⟩ | ⟨c, hh, hw⟩
    · subst h1; subst h2; exact Or.inl rfl
    · subst h1; exact Or.inr ⟨c, hh, hw⟩
    · exact Or.inr ⟨c, head?_append_some r post c hh, hw⟩

/-- A token cannot straddle a single-space seam, so it lies wholly on one
side. -/
theorem tokenIn_seam (x y : Str) (h : tokenIn (x ++ ' ' :: y)) :
    tokenIn x ∨ tokenIn y := by
  obtain ⟨a, n, r, he, hn, hb, ha⟩ := h
  obtain ⟨hnn, hnws, -⟩ := token_facts n hn
  have hx : x ++ (' ' :: y) = a ++ (n ++ r) := by
    rw [← List.append_assoc]; exact he
  rcases List.append_eq_append_iff.mp hx with ⟨k, hk1, hk2⟩ | ⟨k, hk1, hk2⟩
  · cases k with
    | nil =>
        exfalso
        rw [List.nil_append] at hk2
        obtain ⟨c1, c2, c3, hne3, h1, -, -⟩ := token_shape n hn
        rw [hne3] at hk2
        have hc1 : ' ' = c1 := by
          have := congrArg List.head? hk2
          simpa using this
        rw [← hc1] at h1
        exact absurd h1 (by decide)
    | cons d k' =>
        right
        have hd : ' ' = d := by injection hk2
        have hy : y = k' ++ (n ++ r) := by injection hk2
        refine ⟨k', n, r, by rw [hy, List.append_assoc], hn, ?_, ha⟩
        by_cases hk' : k' = []
        · subst hk'; exact Or.inl rfl
        · obtain ⟨e', hgl', -⟩ := getLast?_of_ne_nil k' hk'
          have hae : a.getLast? = some e' := by
            rw [hk1, show x ++ d :: k' = (x ++ [d]) ++ k' by simp]
            exact getLast?_append_some _ _ _ hgl'
          rcases hb with h0 | ⟨e, hgl, hw⟩
          · rw [h0] at hk1
            exact absurd hk1.symm (by simp)
          · rw [hgl] at hae
            injection hae with hae
            exact Or.inr ⟨e', hgl', by rw [← hae]; exact hw⟩
  · rcases List.append_eq_append_iff.mp hk2 with ⟨m, hm1, hm2⟩ | ⟨m, hm1, hm2⟩
    · left
      refine ⟨a, n, m, by rw [hk1, hm1]; simp [List.append_assoc], hn, hb, ?_⟩
      cases hm : m with
      | nil => exact Or.inl rfl
      | cons mc mt =>
          rcases ha with h0 | ⟨c, hh, hw⟩
          · rw [hm2, hm] at h0
            simp at h0
          · rw [hm2, hm] at hh
            have : mc = c := by simpa using hh
            exact Or.inr ⟨c, by rw [← this]; rfl, hw⟩
    · cases m with
      | nil =>
          left
          rw [List.append_nil] at hm1
          exact ⟨a, n, [], by rw [hk1, ← hm1, List.append_nil], hn, hb, Or.inl rfl⟩
      | cons mc mt =>
          exfalso
          have hmc : ' ' = mc := by injection hm2
          have hmem : mc ∈ n := by
            rw [hm1]
            exact List.mem_append.mpr (Or.inr (List.mem_cons_self _ _))
          have := hnws mc hmem
          rw [← hmc] at this
          exact absurd this (by decide)

theorem reverse_reassemble (d : Str) :
    d = (d.reverse.dropWhile jsWs).reverse ++ (d.reverse.takeWhile jsWs).reverse := by
  conv_lhs => rw [← List.reverse_reverse d]
  rw [← List.reverse_append]
  rw [List.takeWhile_append_dropWhile]

/-- `trim` splits a string into a whitespace prefix, the trimmed core and a
whitespace suffix. -/
theorem trimStr_decomp (l : Str) : ∃ u v, l = u ++ trimStr l ++ v ∧
    (∀ c ∈ u, jsWs c = true) ∧ (∀ c ∈ v, jsWs c = true) := by
  refine ⟨l.takeWhile jsWs, ((l.dropWhile jsWs).reverse.takeWhile jsWs).reverse, ?_, ?_, ?_⟩
  · have h2 : trimStr l ++ ((l.dropWhile jsWs).reverse.takeWhile jsWs).reverse =
        l.dropWhile jsWs := by
      show ((l.dropWhile jsWs).reverse.dropWhile jsWs).reverse ++
          ((l.dropWhile jsWs).reverse.takeWhile jsWs).reverse = l.dropWhile jsWs
      exact (reverse_reassemble (l.dropWhile jsWs)).symm
    have h3 : l = l.takeWhile jsWs ++
        (trimStr l ++ ((l.dropWhile jsWs).reverse.takeWhile jsWs).reverse) := by
      rw [h2, List.takeWhile_append_dropWhile]
    rw [← List.append_assoc] at h3
    exact h3
  · exact fun c hc => List.mem_takeWhile_imp hc
  · intro c hc
    rw [List.mem_reverse] at hc
    exact List.mem_takeWhile_imp hc

theorem head?_mem (l : Str) (c : Char) (h : l.head? = some c) : c ∈ l := by
  cases l with
  | nil => simp at h
  | cons d t =>
      injection h with h
      rw [← h]
      exact List.mem_cons_self _ _

theorem firstSplit_some (t : Nat → Option (Str × Str × Str)) :
    ∀ (fuel i : Nat) (r : Str × Str × Str),
      firstSplit t fuel i = some r → ∃ j, t j = some r := by
  intro fuel
  induction fuel with
  | zero => intro i r h; rw [firstSplit] at h; cases h
  | succ f ih =>
      intro i r h
      rw [firstSplit] at h
      cases ht : t i with
      | some v =>
          rw [ht] at h
          have h2 : some v = some r := h
          exact ⟨i, ht.trans h2⟩
      | none =>
          rw [ht] at h
          exact ih _ _ h

theorem matchDollarTail_some_elim (r m4 : Str) (h : matchDollarTail r = some m4) :
    m4 = r.takeWhile (fun c => decide (c ≠ '\n')) ∧
      (r.dropWhile (fun c => decide (c ≠ '\n')) = [] ∨
       r.dropWhile (fun c => decide (c ≠ '\n')) = ['\n']) := by
  unfold matchDollarTail at h
  split at h
  · rename_i heq
    injection h with h
    exact ⟨h.symm, Or.inl heq⟩
  · rename_i heq
    injection h with h
    exact ⟨h.symm, Or.inr heq⟩
  · cases h

theorem matchPPTail_go_elim : ∀ (l : List Str) (r pp m4 : Str),
    matchPPTail.go r l = some (pp, m4) →
    ∃ pp0 ∈ l, ∃ r2, stripPrefixCI pp0 r = some r2 ∧ pp = r.take pp0.length ∧
      wordOpt r2.head? = false ∧ matchDollarTail r2 = some m4 := by
  intro l
  induction l with
  | nil => intro r pp m4 h; rw [matchPPTail.go] at h; cases h
  | cons pp0 rest ih =>
      intro r pp m4 h
      rw [matchPPTail.go] at h
      split at h
      · rename_i r2 heq
        split at h
        · rename_i hw
          split at h
          · rename_i m4' heq2
            injection h with h
            injection h with h1 h2
            exact ⟨pp0, List.mem_cons_self _ _, r2, heq, h1.symm,
              by simpa using hw, by rw [← h2]; exact heq2⟩
          · cases h
        · cases h
      · rename_i heq
        obtain ⟨q, hq, hrest⟩ := ih r pp m4 h
        exact ⟨q, List.mem_cons_of_mem _ hq, hrest⟩

theorem matchPPTail_some_elim (r pp m4 : Str) (h : matchPPTail r = some (pp, m4)) :
    ∃ pp0 ∈ ppList, ∃ r2, r = pp ++ r2 ∧ toLowerStr pp = toLowerStr pp0 ∧
      wordOpt r2.head? = false ∧ m4 = r2.takeWhile (fun c => decide (c ≠ '\n')) ∧
      (r2.dropWhile (fun c => decide (c ≠ '\n')) = [] ∨
       r2.dropWhile (fun c => decide (c ≠ '\n')) = ['\n']) := by
  obtain ⟨pp0, hmem, r2, hstrip, hpp, hw, hmd⟩ := matchPPTail_go_elim ppList r pp m4 h
  obtain ⟨htl, hdec⟩ := stripPrefixCI_take_toLower _ _ _ hstrip
  obtain ⟨hm4, hD⟩ := matchDollarTail_some_elim _ _ hmd
  exact ⟨pp0, hmem, r2, by rw [hpp]; exact hdec, by rw [hpp]; exact htl, hw, hm4, hD⟩

theorem wasWereStep_some_elim (r1 r3 : Str) (h : wasWereStep r1 = some r3) :
    ∃ pre wsr, r1 = pre ++ wsr ++ r3 ∧ wsr ≠ [] ∧ (∀ c ∈ wsr, jsWs c = true) := by
  unfold wasWereStep at h
  split at h
  · rename_i r2 heq
    split at h
    · rename_i hws
      injection h with h
      have hpre : ∃ pre, r1 = pre ++ r2 := by
        cases hs1 : stripPrefixCI (str "was") r1 with
        | some u =>
            rw [hs1] at heq
            have h2 : some u = some r2 := heq
            injection h2 with h2
            subst h2
            obtain ⟨-, h3⟩ := stripPrefixCI_take_toLower _ _ _ hs1
            exact ⟨_, h3⟩
        | none =>
            rw [hs1] at heq
            have heq2 : stripPrefixCI (str "were") r1 = some r2 := heq
            obtain ⟨-, h3⟩ := stripPrefixCI_take_toLower _ _ _ heq2
            exact ⟨_, h3⟩
      obtain ⟨pre, hpre⟩ := hpre
      have hr2ne : r2 ≠ [] := by
        intro h0
        rw [h0] at hws
        exact absurd hws (by decide)
      refine ⟨pre, r2.takeWhile jsWs, ?_, ?_, fun c hc => List.mem_takeWhile_imp hc⟩
      · rw [hpre, List.append_assoc, ← h, List.takeWhile_append_dropWhile]
      · cases r2 with
        | nil => exact absurd rfl hr2ne
        | cons c t =>
            have hc : jsWs c = true := hws
            rw [List.takeWhile_cons_of_pos hc]
            simp
    · cases h
  · cases h

/-- A pattern-1 hit requires a whitespace-delimited `not` in the sentence. -/
theorem p1TryAt_tokenIn (s : Str) (i : Nat) (v : Str × Str × Str)
    (h : p1TryAt s i = some v) : tokenIn s := by
  unfold p1TryAt at h
  split at h
  · split at h
    · rename_i hg hws
      split at h
      · rename_i r3 heq
        split at h
        · rename_i r4 heq2
          split at h
          · rename_i hws4
            obtain ⟨pre, wsr, hr1, hwne, hwsr⟩ := wasWereStep_some_elim _ _ heq
            obtain ⟨htk, hdec⟩ := stripPrefixCI_take_toLower _ _ _ heq2
            have hr4ne : r4 ≠ [] := by
              intro h0
              rw [h0] at hws4
              exact absurd hws4 (by decide)
            obtain ⟨e, hgl, hemem⟩ := getLast?_of_ne_nil wsr hwne
            obtain ⟨c4, hc4⟩ : ∃ c4, r4.head? = some c4 := by
              cases r4 with
              | nil => exact absurd rfl hr4ne
              | cons d t => exact ⟨d, rfl⟩
            have hc4w : jsWs c4 = true := by
              cases r4 with
              | nil => exact absurd rfl hr4ne
              | cons d t =>
                  injection hc4 with hc4
                  rw [← hc4]
                  exact hws4
            have hs2 : s.drop i = (s.drop i).takeWhile jsWs ++ (pre ++ wsr ++ r3) := by
              rw [← hr1, List.takeWhile_append_dropWhile]
            refine tokenIn_assemble s
              (s.take i ++ ((s.drop i).takeWhile jsWs ++ (pre ++ wsr))) []
              (r3.take (str "not").length) r4 [] ?_ (by rw [htk]; decide) ?_ ?_
            · rw [List.append_nil, List.nil_append]
              conv_lhs => rw [← List.take_append_drop i s, hs2, hdec]
              simp [List.append_assoc]
            · refine Or.inr (Or.inl ⟨rfl, e, ?_, hwsr e hemem⟩)
              exact getLast?_append_some _ _ _
                (getLast?_append_some _ _ _ (getLast?_append_some _ _ _ hgl))
            · exact Or.inr (Or.inr ⟨c4, hc4, hc4w⟩)
          · cases h
        · cases h
      · cases h
    · cases h
  · cases h

theorem p2TryAt_some_elim (s : Str) (i : Nat) (sub pp m4 : Str)
    (h : p2TryAt s i = some (sub, pp, m4)) :
    sub = s.take i ∧
    (∃ c, (s.drop i).head? = some c ∧ jsWs c = true) ∧
    (∃ pp0 ∈ ppList, toLowerStr pp = toLowerStr pp0) ∧
    ∃ C r2, s = C ++ r2 ∧ wordOpt r2.head? = false ∧
      m4 = r2.takeWhile (fun c => decide (c ≠ '\n')) ∧
      (r2.dropWhile (fun c => decide (c ≠ '\n')) = [] ∨
       r2.dropWhile (fun c => decide (c ≠ '\n')) = ['\n']) := by
  unfold p2TryAt at h
  split at h
  · split at h
    · rename_i hg hws
      split at h
      · rename_i r3 heq
        split at h
        · rename_i pp' m4' heq2
          injection h with h
          injection h with h1 h
          injection h with h2 h3
          subst h1
          subst h2
          subst h3
          obtain ⟨pre, wsr, hr1, hwne, hwsr⟩ := wasWereStep_some_elim _ _ heq
          obtain ⟨pp0, hmem, r2, hr3, hlow, hw, hm4, hD⟩ := matchPPTail_some_elim _ _ _ heq2
          have hdne : s.drop i ≠ [] := by
            intro h0
            rw [h0] at hws
            exact absurd hws (by decide)
          obtain ⟨c, hc⟩ : ∃ c, (s.drop i).head? = some c := by
            cases hdrop : s.drop i with
            | nil => exact absurd hdrop hdne
            | cons d t => exact ⟨d, rfl⟩
          have hcws : jsWs c = true := by
            cases hdrop : s.drop i with
            | nil => exact absurd hdrop hdne
            | cons d t =>
                rw [hdrop] at hc hws
                injection hc with hc
                rw [← hc]
                exact hws
          refine ⟨rfl, ⟨c, hc, hcws⟩, ⟨pp0, hmem, hlow⟩,
            (s.take i ++ ((s.drop i).takeWhile jsWs ++ (pre ++ wsr ++ pp'))), r2,
            ?_, hw, hm4, hD⟩
          have hs2 : s.drop i = (s.drop i).takeWhile jsWs ++ (pre ++ wsr ++ r3) := by
            rw [← hr1, List.takeWhile_append_dropWhile]
          conv_lhs => rw [← List.take_append_drop i s, hs2, hr3]
          simp [List.append_assoc]
        · cases h
      · cases h
    · cases h
  · cases h

theorem convertPassive_none (s : Str) (co aud : Bool) :
    convertPassiveToActiveSafe s none co aud = ⟨false, s, none⟩ := rfl

theorem convertPassive_noco (s o : Str) (aud : Bool) :
    convertPassiveToActiveSafe s (some o) false aud = ⟨false, s, none⟩ := rfl

/-- The fully reduced form of the converter when the owner is present and
`clearOwnership` is on. -/
theorem convertPassive_some_true (s o : Str) (aud : Bool) :
    convertPassiveToActiveSafe s (some o) true aud =
      (if o.isEmpty = true then
        ({ converted := false, sentence := s, suggestion := none } : ConvertResult)
       else
         match firstMatchP1 s with
         | some (subject, pp, m4) =>
             ({ converted := true
              , sentence := o ++ str " did not " ++ toBaseVerb (toLowerStr pp) ++ [' '] ++
                  trimStr subject ++
                  (if (stripByTail m4).isEmpty then [] else ' ' :: stripByTail m4)
              , suggestion := none } : ConvertResult)
         | none =>
             match firstMatchP2 s with
             | some (subject, pp, m4) =>
                 ({ converted := true
                  , sentence := o ++ [' '] ++ toLowerStr pp ++ [' '] ++ trimStr subject ++
                      (if (stripByTail m4).isEmpty then [] else ' ' :: stripByTail m4)
                  , suggestion := none } : ConvertResult)
             | none =>
                 if aud then
                   ({ converted := false, sentence := s
                    , suggestion := some (str "Active voice not applied (audit-safe): only strict, meaning-preserving patterns are converted.") } : ConvertResult)
                 else
                   ({ converted := false, sentence := s, suggestion := none } : ConvertResult)) := rfl

theorem convertPassive_empty (s o : Str) (aud : Bool) (ho : o.isEmpty = true) :
    convertPassiveToActiveSafe s (some o) true aud = ⟨false, s, none⟩ := by
  rw [convertPassive_some_true, if_pos ho]

theorem convertPassive_p2 (s o : Str) (aud : Bool) (ho : o.isEmpty = false)
    (sub pp m4 : Str) (h1 : firstMatchP1 s = none)
    (h2 : firstMatchP2 s = some (sub, pp, m4)) :
    convertPassiveToActiveSafe s (some o) true aud =
      { converted := true
      , sentence := o ++ [' '] ++ toLowerStr pp ++ [' '] ++ trimStr sub ++
          (if (stripByTail m4).isEmpty then [] else ' ' :: stripByTail m4)
      , suggestion := none } := by
  rw [convertPassive_some_true, if_neg (by simp [ho]), h1, h2]

theorem convertPassive_nomatch (s o : Str) (aud : Bool) (ho : o.isEmpty = false)
    (h1 : firstMatchP1 s = none) (h2 : firstMatchP2 s = none) :
    (convertPassiveToActiveSafe s (some o) true aud).sentence = s := by
  rw [convertPassive_some_true, if_neg (by simp [ho]), h1, h2]
  cases aud <;> rfl

theorem byReplaced_cases (t : Str) :
    stripByTail.byReplaced t = [] ∨ stripByTail.byReplaced t = t := by
  have hz : stripByTail.byReplaced t =
      (match stripPrefixCI (str "by") (t.dropWhile jsWs) with
       | some r =>
           if ((List.range (r.takeWhile jsWs).length).any fun k =>
                 !((r.drop (k + 1)).takeWhile (fun x => decide (x ≠ '\n'))).isEmpty &&
                 (((r.drop (k + 1)).dropWhile (fun x => decide (x ≠ '\n'))).isEmpty ||
                   decide ((r.drop (k + 1)).dropWhile (fun x => decide (x ≠ '\n')) = ['\n']))) = true
           then [] else t
       | none => t) := rfl
  rw [hz]
  split
  · split
    · exact Or.inl rfl
    · exact Or.inr rfl
  · exact Or.inr rfl

/-- A token inside the trimmed lazy subject transfers to the whole sentence:
the subject is an initial segment followed by whitespace. -/
theorem tokenIn_trim_take (s : Str) (i : Nat) (c : Char)
    (hc : (s.drop i).head? = some c) (hw : jsWs c = true)
    (h : tokenIn (trimStr (s.take i))) : tokenIn s := by
  obtain ⟨u, v, hd, hu, hv⟩ := trimStr_decomp (s.take i)
  obtain ⟨a, n, r, he, hn, hb, ha⟩ := h
  refine tokenIn_assemble s u a n r (v ++ s.drop i) ?_ hn ?_ ?_
  · conv_lhs => rw [← List.take_append_drop i s, hd, he]
    simp [List.append_assoc]
  · rcases hb with h0 | ⟨e, hgl, hwse⟩
    · subst h0
      by_cases hu0 : u = []
      · exact Or.inl ⟨hu0, rfl⟩
      · obtain ⟨e, hgl, hmem⟩ := getLast?_of_ne_nil u hu0
        exact Or.inr (Or.inl ⟨rfl, e, hgl, hu e hmem⟩)
    · exact Or.inr (Or.inr ⟨e, hgl, hwse⟩)
  · rcases ha with h0 | ⟨d, hh, hwsd⟩
    · subst h0
      right; left
      refine ⟨rfl, ?_⟩
      by_cases hv0 : v = []
      · subst hv0
        exact ⟨c, hc, hw⟩
      · obtain ⟨d, hd2⟩ : ∃ d, v.head? = some d := by
          cases v with
          | nil => exact absurd rfl hv0
          | cons e t => exact ⟨e, rfl⟩
        exact ⟨d, head?_append_some v _ d hd2, hv d (head?_mem v d hd2)⟩
    · exact Or.inr (Or.inr ⟨d, hh, hwsd⟩)

/-- A token inside the stripped tail transfers to the whole sentence: the
tail is a trimmed final segment whose source position is guarded by the
word-boundary check and the end-of-line structure. -/
theorem tokenIn_stripByTail (s C r2 m4 : Str) (hs : s = C ++ r2)
    (hw : wordOpt r2.head? = false)
    (hm4 : m4 = r2.takeWhile (fun c => decide (c ≠ '\n')))
    (hD : r2.dropWhile (fun c => decide (c ≠ '\n')) = [] ∨
          r2.dropWhile (fun c => decide (c ≠ '\n')) = ['\n'])
    (h : tokenIn (stripByTail m4)) : tokenIn s := by
  rcases byReplaced_cases (trimStr m4) with hbr | hbr
  · rw [show stripByTail m4 = trimStr (stripByTail.byReplaced (trimStr m4)) from rfl,
      hbr] at h
    exact absurd h tokenIn_nil
  · rw [show stripByTail m4 = trimStr (stripByTail.byReplaced (trimStr m4)) from rfl,
      hbr] at h
    obtain ⟨u1, v1, hd1, hu1, hv1⟩ := trimStr_decomp m4
    obtain ⟨u2, v2, hd2, hu2, hv2⟩ := trimStr_decomp (trimStr m4)
    obtain ⟨a, n, r, he, hn, hb, ha⟩ := h
    have hr2 : r2 = m4 ++ r2.dropWhile (fun c => decide (c ≠ '\n')) := by
      rw [hm4]
      exact (List.takeWhile_append_dropWhile _ _).symm
    refine tokenIn_assemble s (C ++ (u1 ++ u2)) a n r
      (v2 ++ (v1 ++ r2.dropWhile (fun c => decide (c ≠ '\n')))) ?_ hn ?_ ?_
    · rw [hs]
      conv_lhs => rw [hr2, hd1, hd2, he]
      simp [List.append_assoc]
    · rcases hb with h0 | ⟨e, hgl, hwse⟩
      · subst h0
        by_cases hu0 : u1 ++ u2 = []
        · exfalso
          obtain ⟨hu10, hu20⟩ := List.append_eq_nil.mp hu0
          obtain ⟨-, -, c1, hc1, hc1w⟩ := token_facts n hn
          have hm4h : m4.head? = some c1 := by
            rw [hd1, hd2, he, hu10, hu20]
            simp only [List.nil_append]
            exact head?_append_some _ _ _ (head?_append_some _ _ _
              (head?_append_some _ _ _ hc1))
          have hr2h : r2.head? = some c1 := by
            rw [hr2]
            exact head?_append_some _ _ _ hm4h
          rw [hr2h] at hw
          have hw2 : isWordChar c1 = false := hw
          rw [hc1w] at hw2
          cases hw2
        · obtain ⟨e, hgl, hmem⟩ := getLast?_of_ne_nil (u1 ++ u2) hu0
          have hws : jsWs e = true := by
            rcases List.mem_append.mp hmem with hm | hm
            · exact hu1 e hm
            · exact hu2 e hm
          exact Or.inr (Or.inl ⟨rfl, e, getLast?_append_some C _ e hgl, hws⟩)
      · exact Or.inr (Or.inr ⟨e, hgl, hwse⟩)
    · rcases ha with h0 | ⟨d, hh, hwsd⟩
      · subst h0
        by_cases hpost : v2 ++ (v1 ++ r2.dropWhile (fun c => decide (c ≠ '\n'))) = []
        · exact Or.inl ⟨hpost, rfl⟩
        · right; left
          refine ⟨rfl, ?_⟩
          obtain ⟨d, hd0⟩ : ∃ d,
              (v2 ++ (v1 ++ r2.dropWhile (fun c => decide (c ≠ '\n')))).head? = some d := by
            cases hcase : v2 ++ (v1 ++ r2.dropWhile (fun c => decide (c ≠ '\n'))) with
            | nil => exact absurd hcase hpost
            | cons e t => exact ⟨e, rfl⟩
          refine ⟨d, hd0, ?_⟩
          have hmem := head?_mem _ _ hd0
          rcases List.mem_append.mp hmem with hm | hm
          · exact hv2 d hm
          · rcases List.mem_append.mp hm with hm2 | hm2
            · exact hv1 d hm2
            · rcases hD with hD0 | hD0
              · rw [hD0] at hm2; cases hm2
              · rw [hD0] at hm2
                have : d = '\n' := by simpa using hm2
                rw [this]
                decide
      · exact Or.inr (Or.inr ⟨d, hh, hwsd⟩)

/-- C2: the converter never invents a negation.  If the sentence has no
whitespace- or boundary-delimited case-insensitive `not` (and neither does
the owner), then the converted sentence has none either, and the pattern-1
search — the only path producing a `did not` clause — cannot match at all;
moreover on the repository's own passive test sentence the full `rewrite`
pipeline emits a rewrittenText without any such token. -/
theorem claim_C2_no_invented_negation (s : Str) (owner : Option Str) (co aud : Bool)
    (hs : hasNotToken s = false)
    (ho : ∀ o, owner = some o → hasNotToken o = false) :
    hasNotToken (convertPassiveToActiveSafe s owner co aud).sentence = false
    ∧ firstMatchP1 s = none
    ∧ hasNotToken (rewrite (str "Access reviews were completed quarterly.")
        baseOptions []).rewrittenText = false := by
  have hP1 : firstMatchP1 s = none := by
    cases hm : firstMatchP1 s with
    | none => rfl
    | some v =>
        exfalso
        obtain ⟨j, hj⟩ := firstSplit_some _ _ _ _ hm
        exact absurd (tokenIn_hasNot s (p1TryAt_tokenIn s j v hj)) (by simp [hs])
  refine ⟨?_, hP1, by decide⟩
  cases owner with
  | none => rw [convertPassive_none]; exact hs
  | some o =>
      have hoo := ho o rfl
      cases co with
      | false => rw [convertPassive_noco]; exact hs
      | true =>
          by_cases hoe : o.isEmpty = true
          · rw [convertPassive_empty s o aud hoe]; exact hs
          · have hoe2 : o.isEmpty = false := by
              cases h2 : o.isEmpty
              · rfl
              · exact absurd h2 hoe
            cases hm2 : firstMatchP2 s with
            | none => rw [convertPassive_nomatch s o aud hoe2 hP1 hm2]; exact hs
            | some v =>
                obtain ⟨sub, pp, m4⟩ := v
                rw [convertPassive_p2 s o aud hoe2 sub pp m4 hP1 hm2]
                obtain ⟨j, hj⟩ := firstSplit_some _ _ _ _ hm2
                obtain ⟨hsub, ⟨c, hc, hcw⟩, ⟨pp0, hmem, hlow⟩, C, r2, hsC, hwr2, hm4e, hDe⟩ :=
                  p2TryAt_some_elim s j sub pp m4 hj
                show hasNotToken (o ++ [' '] ++ toLowerStr pp ++ [' '] ++ trimStr sub ++
                    (if (stripByTail m4).isEmpty then [] else ' ' :: stripByTail m4)) = false
                cases hX : hasNotToken (o ++ [' '] ++ toLowerStr pp ++ [' '] ++ trimStr sub ++
                    (if (stripByTail m4).isEmpty then [] else ' ' :: stripByTail m4)) with
                | false => rfl
                | true =>
                    exfalso
                    have htok := hasNotToken_tokenIn _ hX
                    have hassoc : o ++ [' '] ++ toLowerStr pp ++ [' '] ++ trimStr sub ++
                        (if (stripByTail m4).isEmpty then [] else ' ' :: stripByTail m4) =
                      o ++ ' ' :: (toLowerStr pp ++ ' ' :: (trimStr sub ++
                        (if (stripByTail m4).isEmpty then [] else ' ' :: stripByTail m4))) := by
                      simp [List.append_assoc]
                    rw [hassoc] at htok
                    rcases tokenIn_seam _ _ htok with hO | htok2
                    · exact absurd (tokenIn_hasNot o hO) (by simp [hoo])
                    rcases tokenIn_seam _ _ htok2 with hPP | htok3
                    · have h1 := tokenIn_containsSub _ hPP
                      rw [toLowerStr_idem, hlow] at h1
                      have h2 : ∀ q ∈ ppList, containsSub (str "not") (toLowerStr q) = false := by
                        decide
                      rw [h2 pp0 hmem] at h1
                      cases h1
                    · have htsub : tokenIn (trimStr sub) → False := by
                        intro hT
                        rw [hsub] at hT
                        exact absurd (tokenIn_hasNot s (tokenIn_trim_take s j c hc hcw hT))
                          (by simp [hs])
                      by_cases hemp : (stripByTail m4).isEmpty = true
                      · rw [if_pos hemp, List.append_nil] at htok3
                        exact htsub htok3
                      · rw [if_neg hemp] at htok3
                        rcases tokenIn_seam _ _ htok3 with hT | hTl
                        · exact htsub hT
                        · exact absurd (tokenIn_hasNot s
                            (tokenIn_stripByTail s C r2 m4 hsC hwr2 hm4e hDe hTl))
                            (by simp [hs])

/-- Witness for C2 at a passive sentence without an explicit `not`. -/
theorem claim_C2_witness :
    hasNotToken (str "The report was completed by the team.") = false ∧
    hasNotToken (convertPassiveToActiveSafe (str "The report was completed by the team.")
      (some (str "Operations")) true true).sentence = false := by
  refine ⟨by decide, ?_⟩
  have h := claim_C2_no_invented_negation (str "The report was completed by the team.")
      (some (str "Operations")) true true (by decide)
      (fun o ho => by injection ho with ho; rw [← ho]; decide)
  exact h.1

end CleanSheet
